import Mathlib

/-!
Verification of the wayback-dl core against its specification.

The Go sources are shallowly embedded: Go strings are modelled as Lean
`String` (lists of characters; all inputs relevant to the claims are ASCII,
where Go's byte-wise operations and the character-wise model coincide),
Go maps as association lists updated in place, and `time.Duration` as `Int`
nanoseconds with explicit two's-complement wrapping where int64 overflow
matters.  `net/url.Parse` is treated as an oracle: functions that parse a
raw URL receive the parse outcome (`Option` of the relevant components) as
input, and universal claims quantify over all possible outcomes.
-/

namespace WaybackDL

/-! ## Character and string helpers shared by the embeddings -/

/-- Character class kept by go-sanitize `PathName` (regexp `[^a-zA-Z0-9-_]`
is removed); the sanitizer used by `urls.go` in pretty mode. -/
def isPathNameChar (c : Char) : Bool :=
  c.isAlpha || c.isDigit || c == '-' || c == '_'

/-- go-sanitize `PathName`: drop every character outside `[a-zA-Z0-9-_]`.
Modelled from the library's documented regexp (the dependency is not part
of this repository; `urls.go` documents it as keeping `[a-zA-Z0-9_-]` only). -/
def pathName (s : String) : String :=
  ⟨s.data.filter isPathNameChar⟩

/-- Helper for `goPathExt`: walks the reversed character list; `acc` holds the
characters already passed, in their original order. -/
def goPathExtAux : List Char → List Char → String
  | [], _ => ""
  | c :: rest, acc =>
    if c = '/' then ""
    else if c = '.' then ⟨'.' :: acc⟩
    else goPathExtAux rest (c :: acc)

/-- Go `path.Ext`: the suffix starting at the final dot of the last
slash-separated element, or `""` when there is none. -/
def goPathExt (s : String) : String :=
  goPathExtAux s.data.reverse []

/-- Go `strings.Trim(s, string(c))` for a single cut character. -/
def trimChar (c : Char) (s : String) : String :=
  ⟨((s.data.dropWhile (· = c)).reverse.dropWhile (· = c)).reverse⟩

/-- Go `strings.TrimRight(s, string(c))` for a single cut character. -/
def trimRightChar (c : Char) (s : String) : String :=
  ⟨(s.data.reverse.dropWhile (· = c)).reverse⟩

/-- Go `strings.Split(s, string(sep))` on the character-list level. -/
def splitCh (sep : Char) : List Char → List (List Char)
  | [] => [[]]
  | c :: rest =>
    match splitCh sep rest with
    | [] => [[]]
    | g :: gs => if c = sep then [] :: g :: gs else (c :: g) :: gs

/-- Go `strings.Split(s, string(sep))`. -/
def splitOn (sep : Char) (s : String) : List String :=
  (splitCh sep s.data).map fun l => (⟨l⟩ : String)

/-- Go `strings.Join(parts, "/")`. -/
def joinSlash : List String → String
  | [] => ""
  | [x] => x
  | x :: xs => x ++ "/" ++ joinSlash xs

/-- Go slice `s[:len(s)-n]` (model: drop the last `n` characters). -/
def dropRightStr (s : String) (n : Nat) : String :=
  ⟨s.data.take (s.data.length - n)⟩

/-- Go slice `s[n:]` (model: drop the first `n` characters). -/
def dropLeftStr (s : String) (n : Nat) : String :=
  ⟨s.data.drop n⟩

/-! ## Embedding of `internal/wayback/urls.go` (URL → local path mapper) -/

/-- Hex digits used by `encodeForFS` (`"0123456789ABCDEF"`). -/
def hexUpper (n : Nat) : Char :=
  if n < 10 then Char.ofNat (48 + n) else Char.ofNat (65 + (n - 10))

/-- One step of `encodeForFS`: a character forbidden in Windows file names or
an ASCII control character becomes `%XX`; anything else is kept. -/
def encodeForFSChar (c : Char) : List Char :=
  if c.toNat < 0x20 || c = '\\' || c = ':' || c = '*' || c = '?' ||
      c = '"' || c = '<' || c = '>' || c = '|' then
    ['%', hexUpper (c.toNat / 16), hexUpper (c.toNat % 16)]
  else [c]

/-- Function `encodeForFS` from `urls.go`: percent-encode filesystem-hostile
characters, leaving `/` (and everything else) intact. -/
def encodeForFS (s : String) : String :=
  ⟨s.data.flatMap encodeForFSChar⟩

/-- Function `sanitizeSegment` from `urls.go`: split the extension off first (the
sanitizer strips dots), sanitize both halves, rejoin. -/
def sanitizeSegment (seg : String) : String :=
  let ext := goPathExt seg
  if ext = "" then pathName seg
  else
    let base := pathName (dropRightStr seg ext.length)
    let extPart := pathName (dropLeftStr ext 1)
    let base := if base = "" then "file" else base
    if extPart = "" then base else base ++ "." ++ extPart

/-- Is `c` an ASCII hex digit (Go `ishex`)? -/
def isHexDigitGo (c : Char) : Bool :=
  c.isDigit || ('a' ≤ c && c ≤ 'f') || ('A' ≤ c && c ≤ 'F')

/-- Value of an ASCII hex digit (Go `unhex`). -/
def hexVal (c : Char) : Nat :=
  if c.isDigit then c.toNat - 48
  else if 'a' ≤ c && c ≤ 'f' then c.toNat - 97 + 10
  else c.toNat - 65 + 10

/-- Helper for `queryUnescape` on character lists. -/
def queryUnescapeAux : List Char → Option (List Char)
  | [] => some []
  | '%' :: a :: b :: rest =>
    if isHexDigitGo a && isHexDigitGo b then
      (queryUnescapeAux rest).map (Char.ofNat (16 * hexVal a + hexVal b) :: ·)
    else none
  | '%' :: _ => none
  | '+' :: rest => (queryUnescapeAux rest).map (' ' :: ·)
  | c :: rest => (queryUnescapeAux rest).map (c :: ·)

/-- Go `url.QueryUnescape`: `+` becomes space, `%XX` is decoded, a malformed
percent escape is an error. -/
def queryUnescape (s : String) : Option String :=
  (queryUnescapeAux s.data).map fun l => (⟨l⟩ : String)

/-- The decode-and-replace step of `urlQuerySuffix`: percent-decode the raw
query (falling back to the raw text on a decode error), then replace `=` and
`&` with `_`. -/
def queryReplaced (rawQuery : String) : String :=
  let decoded := (queryUnescape rawQuery).getD rawQuery
  ⟨decoded.data.map fun c => if c = '=' || c = '&' then '_' else c⟩

/-- Function `urlQuerySuffix` from `urls.go`: `""` for an empty query, otherwise
`"_" + PathName(decoded with = and & replaced by _)` unless that sanitization
is empty. -/
def urlQuerySuffix (rawQuery : String) : String :=
  if rawQuery = "" then ""
  else
    let s := pathName (queryReplaced rawQuery)
    if s = "" then "" else "_" ++ s

/-- Function `buildIndexName` from `urls.go`. -/
def buildIndexName (rawQuery : String) : String :=
  "index" ++ urlQuerySuffix rawQuery ++ ".html"

/-- Function `buildFileName` from `urls.go`: query suffix inserted before the
extension. -/
def buildFileName (sanitizedSeg ext rawQuery : String) : String :=
  dropRightStr sanitizedSeg ext.length ++ urlQuerySuffix rawQuery ++ ext

/-- The fields of a parsed `net/url.URL` consumed by `URLToLocalPath`:
`u.Path` (decoded), `u.EscapedPath()` and `u.RawQuery`.  The fragment is
never part of these fields (Go strips `#…` during parsing). -/
structure GoURL where
  path : String
  escapedPath : String
  rawQuery : String
deriving DecidableEq, Repr

/-- Pretty-mode segment collection from `URLToLocalPath`: split the trimmed
path on `/`, skip empty segments, sanitize, keep non-empty results. -/
def prettySegments (p : String) : List String :=
  (splitOn '/' (trimChar '/' p)).filterMap fun seg =>
    if seg = "" then none
    else if sanitizeSegment seg = "" then none
    else some (sanitizeSegment seg)

/-- Preserve-mode segment collection from `URLToLocalPath`: split the trimmed
escaped path on `/`, skip empty segments, percent-encode FS-hostile bytes. -/
def preserveSegments (p : String) : List String :=
  (splitOn '/' (trimChar '/' p)).filterMap fun seg =>
    if seg = "" then none else some (encodeForFS seg)

/-- The `isDir` test of `URLToLocalPath`:
`u.Path == "" || strings.HasSuffix(u.Path, "/")`. -/
def isDirPath (p : String) : Bool :=
  p = "" || p.data.getLast? = some '/'

/-- The final join of `URLToLocalPath`: directory segments joined with `/`,
then the filename (`strings.Join(dirSegs, "/") + "/" + filename` when there
are directory parts, the bare filename otherwise). -/
def assemble (dirs : List String) (filename : String) : String :=
  if dirs = [] then filename else joinSlash dirs ++ "/" ++ filename

/-- Body of `URLToLocalPath` after a successful parse. -/
def urlToLocalPathOf (u : GoURL) (pretty : Bool) : String :=
  let isDir := isDirPath u.path
  if pretty then
    let segments := prettySegments u.path
    if isDir || segments = [] then assemble segments (buildIndexName u.rawQuery)
    else
      let lastSeg := segments.getLastD ""
      let ext := goPathExt lastSeg
      if ext = "" then assemble segments (buildIndexName u.rawQuery)
      else assemble segments.dropLast (buildFileName lastSeg ext u.rawQuery)
  else
    let segments := preserveSegments u.escapedPath
    if isDir || segments = [] then
      let filename :=
        if u.rawQuery = "" then "index.html"
        else "index.html%3F" ++ encodeForFS u.rawQuery
      assemble segments filename
    else
      let lastSeg := segments.getLastD ""
      let dirParts := segments.dropLast
      let lastSeg :=
        if u.rawQuery ≠ "" then lastSeg ++ "%3F" ++ encodeForFS u.rawQuery
        else lastSeg
      assemble dirParts lastSeg

/-- Function `URLToLocalPath` from `urls.go`.  The `parsed` argument is the outcome of
`url.Parse(rawURL)`; a parse failure yields the literal `"unknown"`. -/
def URLToLocalPath (parsed : Option GoURL) (pretty : Bool) : String :=
  match parsed with
  | none => "unknown"
  | some u => urlToLocalPathOf u pretty

example : URLToLocalPath (some ⟨"/search", "/search", "q=go"⟩) true = "search/index_q_go.html" := by decide
example : URLToLocalPath (some ⟨"/img/photo.jpg", "/img/photo.jpg", "v=2"⟩) true = "img/photo_v_2.jpg" := by decide
example : URLToLocalPath (some ⟨"/search", "/search", "q=go"⟩) false = "search%3Fq=go" := by decide
example : URLToLocalPath (some ⟨"/", "/", ""⟩) true = "index.html" := by decide
example : URLToLocalPath (some ⟨"/dir/about", "/dir/about", ""⟩) true = "dir/about/index.html" := by decide
example : URLToLocalPath (some ⟨"/dir/about", "/dir/about", ""⟩) false = "dir/about" := by decide
example : URLToLocalPath (some ⟨"/page/", "/page/", ""⟩) false = "page/index.html" := by decide
example : URLToLocalPath (some ⟨"/file.css", "/file.css", "v=3&t=min"⟩) true = "file_v_3_t_min.css" := by decide
example : URLToLocalPath (some ⟨"/../x", "/../x", ""⟩) false = "../x" := by decide
example : URLToLocalPath none true = "unknown" := by decide

/-! ## Embedding of `snapshot.go` (snapshot index)

Go maps are modelled as association lists with unique keys: `mapInsert`
updates an existing binding in place or appends a new one.  Go's map
iteration order is unspecified; the list order stands in for one admissible
iteration order, and every property proved below is independent of it. -/

/-- Lexicographic strict comparison of character lists: the order Go's
`<` / `>` on strings computes (byte-wise lexicographic; on UTF-8 data the
byte order and the code-point order agree). -/
def lexLt : List Char → List Char → Bool
  | [], [] => false
  | [], _ :: _ => true
  | _ :: _, [] => false
  | a :: as, b :: bs =>
    if a < b then true else if b < a then false else lexLt as bs

/-- Go string comparison `a < b`. -/
def strLtB (a b : String) : Bool :=
  lexLt a.data b.data

/-- Go string comparison `a <= b` (equivalently `¬ (b < a)`). -/
def strLeB (a b : String) : Bool :=
  !strLtB b a

/-- Type `Snapshot` from `snapshot.go`. -/
structure Snapshot where
  fileURL : String
  timestamp : String
  fileID : String
deriving DecidableEq, Repr

/-- The fields of a parsed URL consumed by `Register`/`Resolve`:
`u.Path` and `u.RawQuery`. -/
structure ParsedAsset where
  path : String
  rawQuery : String
deriving DecidableEq, Repr

/-- The `queryKey` computation shared by `Register` and `Resolve`:
path plus `"?" + RawQuery` when the query is non-empty. -/
def queryKeyOf (u : ParsedAsset) : String :=
  if u.rawQuery ≠ "" then u.path ++ "?" ++ u.rawQuery else u.path

/-- One `Register(rawURL, timestamp)` call together with the outcome of
`url.Parse(rawURL)` (`none` models a parse error). -/
structure RegInput where
  rawURL : String
  parsed : Option ParsedAsset
  timestamp : String
deriving DecidableEq, Repr

/-- Association-list lookup (Go map read `m[k]`). -/
def mapLookup {α : Type} : List (String × α) → String → Option α
  | [], _ => none
  | (k', v) :: rest, k => if k' = k then some v else mapLookup rest k

/-- Association-list store (Go map write `m[k] = v`). -/
def mapInsert {α : Type} : List (String × α) → String → α → List (String × α)
  | [], k, v => [(k, v)]
  | (k', v') :: rest, k, v =>
    if k' = k then (k, v) :: rest else (k', v') :: mapInsert rest k v

/-- The conditional store used twice inside `Register`: write the snapshot
iff the key is absent or the new timestamp is lexicographically greater. -/
def condStore (m : List (String × Snapshot)) (k : String) (snap : Snapshot) :
    List (String × Snapshot) :=
  match mapLookup m k with
  | none => mapInsert m k snap
  | some existing =>
    if strLtB existing.timestamp snap.timestamp then mapInsert m k snap else m

/-- Type `SnapshotIndex` from `snapshot.go`. -/
structure SnapshotIndex where
  byPath : List (String × Snapshot)
  byPathAndQuery : List (String × Snapshot)
  manifest : List Snapshot
  lookupPath : List (String × String)
  lookupQuery : List (String × String)
  built : Bool
deriving DecidableEq, Repr

/-- Constructor `NewSnapshotIndex` from `snapshot.go`. -/
def NewSnapshotIndex : SnapshotIndex :=
  ⟨[], [], [], [], [], false⟩

/-- Method `Register` from `snapshot.go`: parse failure is silently dropped;
otherwise both maps conditionally store the new snapshot. -/
def Register (idx : SnapshotIndex) (inp : RegInput) : SnapshotIndex :=
  match inp.parsed with
  | none => idx
  | some u =>
    let pathKey := u.path
    let queryKey := queryKeyOf u
    let snap : Snapshot := ⟨inp.rawURL, inp.timestamp, queryKey⟩
    { idx with
      byPathAndQuery := condStore idx.byPathAndQuery queryKey snap
      byPath := condStore idx.byPath pathKey snap }

/-- The `seen`-map deduplication by `FileID` inside `GetManifest`. -/
def dedupByFileID : List Snapshot → List String → List Snapshot
  | [], _ => []
  | s :: rest, seen =>
    if s.fileID ∈ seen then dedupByFileID rest seen
    else s :: dedupByFileID rest (s.fileID :: seen)

/-- Sorted insertion, newest (lexicographically greatest timestamp) first. -/
def insertDesc (s : Snapshot) : List Snapshot → List Snapshot
  | [] => [s]
  | t :: rest =>
    if strLtB t.timestamp s.timestamp then s :: t :: rest else t :: insertDesc s rest

/-- The `sort.Slice(manifest, Timestamp[i] > Timestamp[j])` call from
`GetManifest`, modelled as insertion sort (Go's sort is unstable and leaves
the relative order of equal timestamps unspecified; only sortedness and the
multiset of elements are relied upon). -/
def sortDesc (l : List Snapshot) : List Snapshot :=
  l.foldr insertDesc []

/-- The state mutation performed by the first `GetManifest` call: the
deduplicated, newest-first manifest plus the two `key → timestamp` lookup
projections are materialized and the index is marked built. -/
def buildManifest (idx : SnapshotIndex) : SnapshotIndex :=
  { idx with
    manifest := sortDesc (dedupByFileID (idx.byPathAndQuery.map (·.2)) [])
    lookupPath := idx.byPath.map fun kv => (kv.1, kv.2.timestamp)
    lookupQuery := idx.byPathAndQuery.map fun kv => (kv.1, kv.2.timestamp)
    built := true }

/-- Method `GetManifest` from `snapshot.go`: on first call materialize the
deduplicated, newest-first manifest and the two lookup projections; later
calls return the memoized list. -/
def GetManifest (idx : SnapshotIndex) : List Snapshot × SnapshotIndex :=
  if idx.built then (idx.manifest, idx)
  else ((buildManifest idx).manifest, buildManifest idx)

/-- Method `Resolve` from `snapshot.go`: lazily build, then query-key lookup,
path-key lookup, caller-provided fallback — parse failure also falls back. -/
def Resolve (idx : SnapshotIndex) (parsed : Option ParsedAsset)
    (fallback : String) : String × SnapshotIndex :=
  let idx := if idx.built then idx else buildManifest idx
  match parsed with
  | none => (fallback, idx)
  | some u =>
    let pathKey := u.path
    let queryKey := queryKeyOf u
    match mapLookup idx.lookupQuery queryKey with
    | some ts => (ts, idx)
    | none =>
      match mapLookup idx.lookupPath pathKey with
      | some ts => (ts, idx)
      | none => (fallback, idx)

/-- The index produced by a sequence of `Register` calls on a fresh index. -/
def buildIndex (inputs : List RegInput) : SnapshotIndex :=
  inputs.foldl Register NewSnapshotIndex

example :
    (GetManifest (buildIndex
      [⟨"https://example.com/page.html", some ⟨"/page.html", ""⟩, "20220101000000"⟩,
       ⟨"https://example.com/page.html", some ⟨"/page.html", ""⟩, "20230601000000"⟩])).1 =
    [⟨"https://example.com/page.html", "20230601000000", "/page.html"⟩] := by decide

example :
    (Resolve (buildIndex
      [⟨"https://example.com/page.html", some ⟨"/page.html", ""⟩, "20230101000000"⟩])
      (some ⟨"/page.html", "v=2"⟩) "fallback").1 = "20230101000000" := by decide

/-! ## Embedding of `internal/wayback/cdx.go` (retry delay, row parsing,
pagination) -/

/-- Two's-complement wrap of an integer into the int64 range, as Go's
overflowing int64 arithmetic produces. -/
def int64Wrap (n : Int) : Int :=
  (n + 2 ^ 63) % 2 ^ 64 - 2 ^ 63

/-- One second in `time.Duration` units (nanoseconds). -/
def oneSecond : Int := 1000000000

/-- Go `strconv.Atoi` on a 64-bit platform: optional sign, decimal digits,
error on anything else or on int64 overflow. -/
def goAtoi (s : String) : Option Int :=
  match s.data with
  | [] => none
  | c :: rest =>
    let signDigits : Bool × List Char :=
      if c = '-' then (true, rest)
      else if c = '+' then (false, rest)
      else (false, c :: rest)
    let digits := signDigits.2
    if digits = [] then none
    else if digits.all Char.isDigit then
      let n : Nat := digits.foldl (fun acc d => acc * 10 + (d.toNat - 48)) 0
      if signDigits.1 then
        if n ≤ 2 ^ 63 then some (-(n : Int)) else none
      else
        if n ≤ 2 ^ 63 - 1 then some (n : Int) else none
    else none

/-- The exponential-backoff path of `retryDelay`:
`5 * time.Second << uint(attempt)`, capped at 60 s.  The left shift wraps
like Go int64 arithmetic (and yields 0 for shifts of 64 or more, which
`int64Wrap` of the exact product also gives). -/
def retryBackoff (attempt : Nat) : Int :=
  if int64Wrap (5 * oneSecond * 2 ^ attempt) > 60 * oneSecond then
    60 * oneSecond
  else int64Wrap (5 * oneSecond * 2 ^ attempt)

/-- Function `retryDelay` from `cdx.go`.  `retryAfter` is the value of the
`Retry-After` response header, `""` when absent (or when the response is
nil).  The result is a `time.Duration` in nanoseconds; the
seconds-to-duration multiplication wraps like Go int64 arithmetic. -/
def retryDelay (attempt : Nat) (retryAfter : String) : Int :=
  if retryAfter ≠ "" then
    match goAtoi retryAfter with
    | some secs =>
      if secs > 0 then
        if int64Wrap (secs * oneSecond) > 120 * oneSecond then
          120 * oneSecond
        else int64Wrap (secs * oneSecond)
      else retryBackoff attempt
    | none => retryBackoff attempt
  else retryBackoff attempt

example : retryDelay 0 "" = 5 * oneSecond := by decide
example : retryDelay 3 "" = 40 * oneSecond := by decide
example : retryDelay 4 "" = 60 * oneSecond := by decide
example : retryDelay 2 "7" = 7 * oneSecond := by decide
example : retryDelay 2 "500" = 120 * oneSecond := by decide
example : retryDelay 2 "junk" = 20 * oneSecond := by decide
example : retryDelay 31 "" = -7709325833709551616 := by decide

/-- Type `CDXEntry` from `cdx.go`. -/
structure CDXEntry where
  timestamp : String
  originalURL : String
deriving DecidableEq, Repr

/-- The row loop of the 200-status branch of `fetchCDXPage`: skip the header
row (index 0), skip rows with fewer than two elements, take element 0 as the
timestamp and element 1 as the original URL. -/
def cdxRowsAux : Nat → List (List String) → List CDXEntry
  | _, [] => []
  | i, row :: rest =>
    if i = 0 then cdxRowsAux (i + 1) rest
    else
      match row with
      | t :: o :: _ => ⟨t, o⟩ :: cdxRowsAux (i + 1) rest
      | _ => cdxRowsAux (i + 1) rest

/-- Entries produced by `fetchCDXPage` from a decoded JSON array of arrays. -/
def cdxEntriesOfRows (rows : List (List String)) : List CDXEntry :=
  cdxRowsAux 0 rows

example :
    cdxEntriesOfRows [["timestamp", "original"], ["t1", "u1"], ["short"], ["t2", "u2", "x"]] =
    [⟨"t1", "u1"⟩, ⟨"t2", "u2"⟩] := by decide

/-- The environment of `fetchAllSnapshots`: the outcome of
`fetchCDXPage(ctx, lim, url, pageIndex, …)` for a request URL and a page
index (`-1` encodes "no page parameter", the exact-URL mode). -/
def CDXFetch : Type := String → Int → Except String (List CDXEntry)

/-- Cross-variant deduplication by the key `timestamp + "|" + originalURL`
done inside `fetchAllSnapshots`.  Returns the extended seen-set and
accumulated entry list. -/
def dedupAdd (seen : List String) (acc : List CDXEntry)
    (entries : List CDXEntry) : List String × List CDXEntry :=
  entries.foldl
    (fun sa e =>
      let key := e.timestamp ++ "|" ++ e.originalURL
      if key ∈ sa.1 then sa else (key :: sa.1, sa.2 ++ [e]))
    (seen, acc)

/-- The wildcard URL built for a variant:
`strings.TrimRight(variant, "/") + "/*"`. -/
def wildcardOf (variant : String) : String :=
  trimRightChar '/' variant ++ "/*"

/-- The wildcard pagination loop `for page := 0; page < 100; page++` of
`fetchAllSnapshots`, with the loop counter `page` paired with the remaining
iteration budget `fuel` (invariant `page + fuel = 100`).  Besides the
seen-set and accumulator it returns the trace of `(url, page)` requests
issued, which the pagination claims are stated over.  A fetch error or an
empty page ends the loop for this variant only. -/
def pageLoop (fetch : CDXFetch) (wurl : String) :
    Nat → Nat → List String → List CDXEntry →
    (List String × List CDXEntry) × List (String × Int)
  | _, 0, seen, acc => ((seen, acc), [])
  | page, fuel + 1, seen, acc =>
    match fetch wurl (page : Int) with
    | .error _ => ((seen, acc), [(wurl, (page : Int))])
    | .ok entries =>
      if entries = [] then ((seen, acc), [(wurl, (page : Int))])
      else
        let sa := dedupAdd seen acc entries
        let rest := pageLoop fetch wurl (page + 1) fuel sa.1 sa.2
        (rest.1, (wurl, (page : Int)) :: rest.2)

/-- The variant loop of `fetchAllSnapshots`.  In exact-URL mode each variant
is fetched once with page index `-1` and an error aborts the whole fetch; in
wildcard mode each variant is paginated with `pageLoop` and errors are
contained.  Also returns the request trace. -/
def fetchAllAux (fetch : CDXFetch) (exactURL : Bool) :
    List String → List String → List CDXEntry →
    Except String (List CDXEntry) × List (String × Int)
  | [], _, acc => (.ok acc, [])
  | v :: vs, seen, acc =>
    if exactURL then
      match fetch v (-1) with
      | .error e => (.error e, [(v, -1)])
      | .ok entries =>
        let sa := dedupAdd seen acc entries
        let rest := fetchAllAux fetch exactURL vs sa.1 sa.2
        (rest.1, (v, -1) :: rest.2)
    else
      let wurl := wildcardOf v
      let pg := pageLoop fetch wurl 0 100 seen acc
      let rest := fetchAllAux fetch exactURL vs pg.1.1 pg.1.2
      (rest.1, pg.2 ++ rest.2)

/-- Function `fetchAllSnapshots` from `cdx.go` (rate limiting and progress reporting
are irrelevant to the fetched-page structure and elided), together with the
trace of issued CDX requests. -/
def fetchAllSnapshots (fetch : CDXFetch) (variants : List String)
    (exactURL : Bool) : Except String (List CDXEntry) × List (String × Int) :=
  fetchAllAux fetch exactURL variants [] []

/-! ## Embedding of the HTML rewriter's attribute rewrite
(`rewriteAttr` in the HTML rewriter file, plus `RelativeLink`, `ToPosix` and
`isInternalHost`)

`filepath` functions are modelled for the slash-separated (Unix) flavour the
program's own paths use; `filepath.FromSlash`/`ToSlash` are then the
identity. -/

/-- Go `filepath.Clean` for slash-separated paths: drop empty and `.`
elements, apply `..` to the preceding element where possible, keep rooted
paths rooted; the empty result becomes `.`. -/
def filepathClean (p : String) : String :=
  if p = "" then "."
  else
    let rooted := p.data.head? = some '/'
    let segs := splitOn '/' p
    let out := segs.foldl
      (fun acc seg =>
        if seg = "" || seg = "." then acc
        else if seg = ".." then
          if rooted then acc.dropLast
          else
            match acc.getLast? with
            | some l => if l = ".." then acc ++ [seg] else acc.dropLast
            | none => acc ++ [seg]
        else acc ++ [seg])
      []
    let joined := joinSlash out
    if rooted then (if joined = "" then "/" else "/" ++ joined)
    else (if joined = "" then "." else joined)

/-- Path elements of a cleaned path, for `filepathRel`'s element-wise
comparison (`""` and `"/"` have none). -/
def relSegs (p : String) : List String :=
  if p = "" || p = "/" then []
  else if p.data.head? = some '/' then splitOn '/' (dropLeftStr p 1)
  else splitOn '/' p

/-- Drop the common leading elements of two segment lists (the first loop of
`filepath.Rel`). -/
def dropCommon : List String → List String → List String × List String
  | a :: as, b :: bs => if a = b then dropCommon as bs else (a :: as, b :: bs)
  | as, bs => (as, bs)

/-- Go `filepath.Rel(base, targ)` for slash-separated paths: clean both,
require equal rootedness, strip the common element prefix, refuse a `..`
remainder in the base, then climb with `..` elements and descend into the
target remainder. -/
def filepathRel (base targ : String) : Option String :=
  let base := filepathClean base
  let targ := filepathClean targ
  if targ = base then some "."
  else
    let base := if base = "." then "" else base
    let baseSlashed := base.data.head? = some '/'
    let targSlashed := targ.data.head? = some '/'
    if baseSlashed ≠ targSlashed then none
    else
      let rem := dropCommon (relSegs base) (relSegs targ)
      if rem.1.head? = some ".." then none
      else if rem.1 = [] then some (joinSlash rem.2)
      else
        let ups := joinSlash (rem.1.map fun _ => "..")
        if rem.2 = [] then some ups else some (ups ++ "/" ++ joinSlash rem.2)

/-- Go `filepath.Join(a, b)`: join the non-empty parts with a separator and
clean the result. -/
def goFilepathJoin (a b : String) : String :=
  if a = "" && b = "" then ""
  else if a = "" then filepathClean b
  else if b = "" then filepathClean a
  else filepathClean (a ++ "/" ++ b)

/-- Function `ToPosix` from `urls.go`: replace every backslash with a forward
slash. -/
def ToPosix (p : String) : String :=
  ⟨p.data.map fun c => if c = '\\' then '/' else c⟩

/-- Function `RelativeLink` from `urls.go`: the relative path from `fromDir` to
`toFile`, falling back to `toFile` when `filepath.Rel` fails. -/
def RelativeLink (fromDir toFile : String) : String :=
  match filepathRel fromDir toFile with
  | none => toFile
  | some rel => ToPosix rel

example : RelativeLink "websites/example.com" "websites/example.com/about/index.html" = "about/index.html" := by decide
example : RelativeLink "websites/example.com/a/b" "websites/example.com/css/x.css" = "../../css/x.css" := by decide
example : RelativeLink "a" "/b" = "/b" := by decide

/-- ASCII lower-casing of a character (Go `strings.ToLower`; the claims only
involve ASCII host names, where Go's Unicode mapping coincides). -/
def asciiLower (c : Char) : Char :=
  if 'A' ≤ c && c ≤ 'Z' then Char.ofNat (c.toNat + 32) else c

/-- ASCII lower-casing of a string. -/
def strToLower (s : String) : String :=
  ⟨s.data.map asciiLower⟩

/-- Go `strings.HasPrefix(s, pre)`. -/
def strHasPref (s pre : String) : Bool :=
  s.data.take pre.length = pre.data

/-- Go `strings.TrimPrefix(s, "www.")`. -/
def trimWWW (s : String) : String :=
  if strHasPref s "www." then dropLeftStr s 4 else s

/-- Function `isInternalHost` from `downloader.go`: lower-case the host, strip a
leading `www.`, compare with the lower-cased configured bare host. -/
def isInternalHost (host bareHost : String) : Bool :=
  trimWWW (strToLower host) = strToLower bareHost

/-- Characters trimmed by Go `strings.TrimSpace` (ASCII whitespace plus
U+0085 and U+00A0; other Unicode space classes do not occur in the claims'
inputs). -/
def isSpaceGo (c : Char) : Bool :=
  c.toNat = 9 || c.toNat = 10 || c.toNat = 11 || c.toNat = 12 ||
  c.toNat = 13 || c.toNat = 32 || c.toNat = 133 || c.toNat = 160

/-- Go `strings.TrimSpace`. -/
def trimSpace (s : String) : String :=
  ⟨((s.data.dropWhile isSpaceGo).reverse.dropWhile isSpaceGo).reverse⟩

/-- The `strings.ReplaceAll(rel, "%", "%25")` call from `rewriteAttr`: double every
literal percent sign. -/
def replaceAllPercent (s : String) : String :=
  ⟨s.data.flatMap fun c => if c = '%' then ['%', '2', '5'] else [c]⟩

/-- The result of resolving an attribute value against the page URL
(`pageU.Parse(val)` in `rewriteAttr`): the resolved scheme and host, and the
components `URLToLocalPath` sees when it re-parses `resolved.String()`. -/
structure ResolvedURL where
  scheme : String
  host : String
  url : GoURL
deriving DecidableEq, Repr

/-- The skip conditions at the top of `rewriteAttr`: empty value or one of
the `#` / `javascript:` / `data:` / `mailto:` schemes. -/
def skipAttrVal (val : String) : Bool :=
  val = "" || strHasPref val "#" || strHasPref val "javascript:" ||
  strHasPref val "data:" || strHasPref val "mailto:"

/-- Function `rewriteAttr` from the HTML rewriter, at the level of one attribute
value: `none` means the attribute is left unchanged.  `parseRef` is the
reference-resolution oracle `pageU.Parse`; `directory` is `cfg.Directory`
and `localDir` the directory of the page's output file. -/
def rewriteAttrVal (parseRef : String → Option ResolvedURL) (aval : String)
    (bareHost directory localDir : String) (pretty : Bool) : Option String :=
  let val := trimSpace aval
  if skipAttrVal val then none
  else
    match parseRef val with
    | none => none
    | some r =>
      if r.scheme ≠ "http" && r.scheme ≠ "https" then none
      else if !isInternalHost r.host bareHost then none
      else
        let localTarget := URLToLocalPath (some r.url) pretty
        let localTarget := ToPosix (goFilepathJoin directory localTarget)
        let rel := RelativeLink localDir localTarget
        some (replaceAllPercent rel)

example :
    rewriteAttrVal
      (fun v =>
        if v = "style.css?HASH" then
          some ⟨"http", "example.com", ⟨"/style.css", "/style.css", "HASH"⟩⟩
        else none)
      "style.css?HASH" "example.com" "websites/example.com"
      "websites/example.com" false =
    some "style.css%253FHASH" := by decide

example :
    rewriteAttrVal
      (fun v =>
        if v = "http://example.com/about/" then
          some ⟨"http", "example.com", ⟨"/about/", "/about/", ""⟩⟩
        else none)
      "http://example.com/about/" "example.com" "websites/example.com"
      "websites/example.com" true =
    some "about/index.html" := by decide

example :
    rewriteAttrVal (fun _ => none) "data:image/png;base64,xyz"
      "example.com" "websites/example.com" "websites/example.com" false =
    none := by decide

/-! ## Basic string and split/join lemmas -/

theorem strData_append (a b : String) : (a ++ b).data = a.data ++ b.data := by
  cases a; cases b; rfl

theorem strNe_empty_of_data_ne_nil {s : String} (h : s.data ≠ []) : s ≠ "" := by
  intro hs
  exact h (by simp [hs])

theorem splitCh_ne_nil (c : Char) (l : List Char) : splitCh c l ≠ [] := by
  cases l with
  | nil => simp [splitCh]
  | cons x rest =>
    unfold splitCh
    cases splitCh c rest with
    | nil => simp
    | cons g gs =>
      by_cases hx : x = c <;> simp [hx]

theorem splitCh_of_not_mem {c : Char} {l : List Char} (h : c ∉ l) :
    splitCh c l = [l] := by
  induction l with
  | nil => rfl
  | cons x rest ih =>
    have hx : x ≠ c := fun hxc => h (hxc ▸ List.mem_cons_self x rest)
    have hrest : c ∉ rest := fun hc => h (List.mem_cons_of_mem x hc)
    unfold splitCh
    rw [ih hrest]
    simp [hx]

theorem splitCh_cons (c x : Char) (rest : List Char) :
    splitCh c (x :: rest) =
      match splitCh c rest with
      | [] => [[]]
      | g :: gs => if x = c then [] :: g :: gs else (x :: g) :: gs := rfl

theorem splitCh_append_sep {c : Char} {a : List Char} (rest : List Char)
    (h : c ∉ a) : splitCh c (a ++ c :: rest) = a :: splitCh c rest := by
  induction a with
  | nil =>
    rw [List.nil_append, splitCh_cons]
    cases hr : splitCh c rest with
    | nil => exact absurd hr (splitCh_ne_nil c rest)
    | cons g gs => simp
  | cons x a' ih =>
    have hx : x ≠ c := fun hxc => h (hxc ▸ List.mem_cons_self x a')
    have ha' : c ∉ a' := fun hc => h (List.mem_cons_of_mem x hc)
    rw [List.cons_append, splitCh_cons, ih ha']
    simp [hx]

theorem mem_splitCh_not_mem {c : Char} {l m : List Char}
    (hm : m ∈ splitCh c l) : c ∉ m := by
  induction l generalizing m with
  | nil =>
    simp [splitCh] at hm
    simp [hm]
  | cons x rest ih =>
    unfold splitCh at hm
    cases hr : splitCh c rest with
    | nil => exact absurd hr (splitCh_ne_nil c rest)
    | cons g gs =>
      rw [hr] at hm
      by_cases hx : x = c
      · simp [hx] at hm
        rcases hm with hm | hm | hm
        · simp [hm]
        · exact ih (hm ▸ hr ▸ List.mem_cons_self g gs)
        · exact ih (hr ▸ List.mem_cons_of_mem g hm)
      · simp [hx] at hm
        rcases hm with hm | hm
        · subst hm
          intro hmem
          rcases List.mem_cons.mp hmem with h1 | h1
          · exact hx h1.symm
          · exact ih (hr ▸ List.mem_cons_self g gs) h1
        · exact ih (hr ▸ List.mem_cons_of_mem g hm)

theorem mem_splitOn_not_mem {m s : String} {c : Char}
    (hm : m ∈ splitOn c s) : c ∉ m.data := by
  rcases List.mem_map.mp hm with ⟨l, hl, hml⟩
  have : m.data = l := by rw [← hml]
  rw [this]
  exact mem_splitCh_not_mem hl

theorem joinSlash_cons (p q : String) (ps : List String) :
    joinSlash (p :: q :: ps) = p ++ "/" ++ joinSlash (q :: ps) := rfl

theorem data_joinSlash_cons (p q : String) (ps : List String) :
    (joinSlash (p :: q :: ps)).data = p.data ++ '/' :: (joinSlash (q :: ps)).data := by
  rw [joinSlash_cons, strData_append, strData_append,
    show ("/" : String).data = ['/'] from rfl, List.append_assoc]
  rfl

theorem splitOn_joinSlash {p : String} {ps : List String}
    (h : ∀ q ∈ p :: ps, '/' ∉ q.data) :
    splitOn '/' (joinSlash (p :: ps)) = p :: ps := by
  induction ps generalizing p with
  | nil =>
    show (splitCh '/' p.data).map _ = [p]
    rw [splitCh_of_not_mem (h p (List.mem_cons_self p []))]
    rfl
  | cons q ps' ih =>
    have hp : '/' ∉ p.data := h p (List.mem_cons_self _ _)
    have hrest : ∀ r ∈ q :: ps', '/' ∉ r.data :=
      fun r hr => h r (List.mem_cons_of_mem p hr)
    show (splitCh '/' (joinSlash (p :: q :: ps')).data).map _ = _
    rw [data_joinSlash_cons, splitCh_append_sep _ hp]
    have := ih hrest
    show (⟨p.data⟩ : String) :: (splitCh '/' (joinSlash (q :: ps')).data).map _ = _
    rw [show (⟨p.data⟩ : String) = p from rfl]
    exact congrArg (p :: ·) this

theorem head?_joinSlash {p : String} (ps : List String) (h : p.data ≠ []) :
    (joinSlash (p :: ps)).data.head? = p.data.head? := by
  cases ps with
  | nil => rfl
  | cons q ps' =>
    rw [data_joinSlash_cons]
    cases hd : p.data with
    | nil => exact absurd hd h
    | cons c cs => simp

theorem joinSlash_append_singleton {dirs : List String} (f : String)
    (h : dirs ≠ []) : joinSlash dirs ++ "/" ++ f = joinSlash (dirs ++ [f]) := by
  induction dirs with
  | nil => exact absurd rfl h
  | cons d dirs' ih =>
    cases dirs' with
    | nil => rfl
    | cons d' dirs'' =>
      have key := congrArg String.data (ih (by simp))
      rw [strData_append, strData_append] at key
      simp only [List.cons_append] at key
      apply String.ext
      rw [strData_append, strData_append]
      simp only [List.cons_append]
      rw [data_joinSlash_cons, data_joinSlash_cons, ← key]
      simp [List.append_assoc]

/-! ## Character-level lemmas for the URL→path mapper -/

theorem pathNameChar_ne_dot {c : Char} (h : isPathNameChar c = true) : c ≠ '.' := by
  intro hc; subst hc; exact absurd h (by decide)

theorem pathNameChar_ne_slash {c : Char} (h : isPathNameChar c = true) : c ≠ '/' := by
  intro hc; subst hc; exact absurd h (by decide)

theorem mem_pathName {s : String} {c : Char} (h : c ∈ (pathName s).data) :
    isPathNameChar c = true :=
  (List.mem_filter.mp h).2

theorem mem_urlQuerySuffix {q : String} {c : Char}
    (h : c ∈ (urlQuerySuffix q).data) : isPathNameChar c = true := by
  unfold urlQuerySuffix at h
  by_cases hq : q = ""
  · rw [if_pos hq, show ("" : String).data = [] from rfl] at h
    exact absurd h (List.not_mem_nil c)
  · rw [if_neg hq] at h
    by_cases hs : pathName (queryReplaced q) = ""
    · rw [if_pos hs, show ("" : String).data = [] from rfl] at h
      exact absurd h (List.not_mem_nil c)
    · rw [if_neg hs, strData_append] at h
      rcases List.mem_append.mp h with h1 | h1
      · rw [show ("_" : String).data = ['_'] from rfl] at h1
        rcases List.mem_singleton.mp h1 with rfl
        decide
      · exact mem_pathName h1

theorem goPathExtAux_no_dot {xs : List Char} (acc : List Char)
    (h : ∀ x ∈ xs, x ≠ '.') : goPathExtAux xs acc = "" := by
  induction xs generalizing acc with
  | nil => rfl
  | cons x rest ih =>
    unfold goPathExtAux
    by_cases hx : x = '/'
    · rw [if_pos hx]
    · rw [if_neg hx, if_neg (h x (List.mem_cons_self _ _))]
      exact ih _ fun y hy => h y (List.mem_cons_of_mem _ hy)

theorem goPathExtAux_dot {xs : List Char} (ys : List Char)
    (h : ∀ x ∈ xs, x ≠ '.' ∧ x ≠ '/') :
    ∀ acc, goPathExtAux (xs ++ '.' :: ys) acc = ⟨'.' :: (xs.reverse ++ acc)⟩ := by
  induction xs with
  | nil => intro acc; rfl
  | cons x rest ih =>
    intro acc
    rw [List.cons_append]
    unfold goPathExtAux
    rw [if_neg (h x (List.mem_cons_self _ _)).2,
      if_neg (h x (List.mem_cons_self _ _)).1,
      ih (fun y hy => h y (List.mem_cons_of_mem _ hy)) (x :: acc)]
    congr 1
    simp

theorem goPathExt_of_safe {s : String}
    (h : ∀ c ∈ s.data, isPathNameChar c = true) : goPathExt s = "" := by
  apply goPathExtAux_no_dot
  intro x hx
  exact pathNameChar_ne_dot (h x (List.mem_reverse.mp hx))

theorem goPathExt_dot_suffix {s : String} {b e' : List Char}
    (hdata : s.data = b ++ '.' :: e')
    (he : ∀ c ∈ e', isPathNameChar c = true) :
    goPathExt s = ⟨'.' :: e'⟩ := by
  unfold goPathExt
  rw [hdata, List.reverse_append, List.reverse_cons, List.append_assoc,
    List.singleton_append,
    goPathExtAux_dot _ (fun y hy =>
      ⟨pathNameChar_ne_dot (he y (List.mem_reverse.mp hy)),
       pathNameChar_ne_slash (he y (List.mem_reverse.mp hy))⟩)]
  simp

theorem dropRightStr_append {s : String} {b tail : List Char}
    (hdata : s.data = b ++ tail) : dropRightStr s tail.length = ⟨b⟩ := by
  unfold dropRightStr
  rw [hdata]
  congr 1
  rw [List.length_append, Nat.add_sub_cancel, List.take_left]

theorem strData_ne_nil {t : String} (ht : t ≠ "") : t.data ≠ [] := by
  intro hd
  exact ht (String.ext (by rw [hd]))

theorem sanitizeSegment_eq_noext {seg : String} (h : goPathExt seg = "") :
    sanitizeSegment seg = pathName seg := by
  unfold sanitizeSegment
  rw [if_pos h]

/-- The extension branch of `sanitizeSegment`, with the `let` bindings
expanded. -/
theorem sanitizeSegment_eq_ext {seg : String} (h : ¬goPathExt seg = "") :
    sanitizeSegment seg =
      if pathName (dropLeftStr (goPathExt seg) 1) = "" then
        (if pathName (dropRightStr seg (goPathExt seg).length) = "" then "file"
         else pathName (dropRightStr seg (goPathExt seg).length))
      else
        (if pathName (dropRightStr seg (goPathExt seg).length) = "" then "file"
         else pathName (dropRightStr seg (goPathExt seg).length)) ++ "." ++
          pathName (dropLeftStr (goPathExt seg) 1) := by
  unfold sanitizeSegment
  rw [if_neg h]

/-- Shape of a non-empty `sanitizeSegment` result: a non-empty base of
sanitizer-safe characters, optionally followed by a dot and a non-empty
sanitizer-safe extension. -/
theorem sanitizeSegment_shape (seg : String) :
    sanitizeSegment seg = "" ∨
    ∃ b e, (sanitizeSegment seg).data = b ++ e ∧ b ≠ [] ∧
      (∀ c ∈ b, isPathNameChar c = true) ∧
      (e = [] ∨ ∃ e', e = '.' :: e' ∧ e' ≠ [] ∧
        ∀ c ∈ e', isPathNameChar c = true) := by
  have hfile : ∀ c ∈ ("file" : String).data, isPathNameChar c = true := by decide
  by_cases hext : goPathExt seg = ""
  · rw [sanitizeSegment_eq_noext hext]
    by_cases hp : pathName seg = ""
    · exact Or.inl hp
    · exact Or.inr ⟨(pathName seg).data, [], by simp, strData_ne_nil hp,
        fun c hc => mem_pathName hc, Or.inl rfl⟩
  · rw [sanitizeSegment_eq_ext hext]
    by_cases hep : pathName (dropLeftStr (goPathExt seg) 1) = ""
    · rw [if_pos hep]
      by_cases hb : pathName (dropRightStr seg (goPathExt seg).length) = ""
      · rw [if_pos hb]
        exact Or.inr ⟨("file" : String).data, [], by simp, by decide, hfile,
          Or.inl rfl⟩
      · rw [if_neg hb]
        exact Or.inr ⟨(pathName (dropRightStr seg (goPathExt seg).length)).data,
          [], by simp, strData_ne_nil hb, fun c hc => mem_pathName hc,
          Or.inl rfl⟩
    · rw [if_neg hep]
      by_cases hb : pathName (dropRightStr seg (goPathExt seg).length) = ""
      · rw [if_pos hb]
        refine Or.inr ⟨("file" : String).data,
          '.' :: (pathName (dropLeftStr (goPathExt seg) 1)).data, ?_, by decide,
          hfile, Or.inr ⟨_, rfl, strData_ne_nil hep, fun c hc => mem_pathName hc⟩⟩
        rw [strData_append, strData_append, List.append_assoc]
        rfl
      · rw [if_neg hb]
        refine Or.inr ⟨(pathName (dropRightStr seg (goPathExt seg).length)).data,
          '.' :: (pathName (dropLeftStr (goPathExt seg) 1)).data, ?_,
          strData_ne_nil hb, fun c hc => mem_pathName hc,
          Or.inr ⟨_, rfl, strData_ne_nil hep, fun c hc => mem_pathName hc⟩⟩
        rw [strData_append, strData_append, List.append_assoc]
        rfl

/-- A well-formed output component: non-empty, headed by a sanitizer-safe
character, slash-free. -/
def GoodComp (s : String) : Prop :=
  s.data ≠ [] ∧ (∀ c, s.data.head? = some c → isPathNameChar c = true) ∧
  '/' ∉ s.data

theorem GoodComp.ne_dotdot {s : String} (h : GoodComp s) : s ≠ ".." := by
  intro hs; subst hs
  exact absurd (h.2.1 '.' rfl) (by decide)

theorem goodComp_sanitizeSegment {seg : String}
    (h : sanitizeSegment seg ≠ "") : GoodComp (sanitizeSegment seg) := by
  rcases sanitizeSegment_shape seg with h0 | ⟨b, e, hdata, hb, hbc, he⟩
  · exact absurd h0 h
  · refine ⟨?_, ?_, ?_⟩
    · rw [hdata]
      cases b with
      | nil => exact absurd rfl hb
      | cons c0 b' => simp
    · intro c hc
      rw [hdata] at hc
      cases b with
      | nil => exact absurd rfl hb
      | cons c0 b' =>
        rw [List.cons_append, List.head?_cons] at hc
        obtain rfl : c0 = c := Option.some.inj hc
        exact hbc _ (List.mem_cons_self _ _)
    · rw [hdata]
      intro hmem
      rcases List.mem_append.mp hmem with h1 | h1
      · exact pathNameChar_ne_slash (hbc '/' h1) rfl
      · rcases he with rfl | ⟨e', rfl, hne, hec⟩
        · exact absurd h1 (List.not_mem_nil '/')
        · rcases List.mem_cons.mp h1 with h2 | h2
          · exact absurd h2 (by decide)
          · exact pathNameChar_ne_slash (hec '/' h2) rfl

theorem mem_prettySegments {p s : String} (h : s ∈ prettySegments p) :
    s ≠ "" ∧ ∃ seg, sanitizeSegment seg = s := by
  rcases List.mem_filterMap.mp h with ⟨seg, _, hf⟩
  by_cases h1 : seg = ""
  · rw [if_pos h1] at hf; exact absurd hf (by simp)
  · rw [if_neg h1] at hf
    by_cases h2 : sanitizeSegment seg = ""
    · rw [if_pos h2] at hf; exact absurd hf (by simp)
    · rw [if_neg h2] at hf
      cases hf
      exact ⟨h2, seg, rfl⟩

theorem goodComp_mem_prettySegments {p s : String}
    (h : s ∈ prettySegments p) : GoodComp s := by
  rcases mem_prettySegments h with ⟨hne, seg, hseg⟩
  rw [← hseg]
  exact goodComp_sanitizeSegment (hseg ▸ hne)

theorem goodComp_buildIndexName (q : String) :
    GoodComp (buildIndexName q) ∧ (buildIndexName q).data.head? = some 'i' := by
  have hdata : (buildIndexName q).data =
      ("index" : String).data ++ (urlQuerySuffix q).data ++
        (".html" : String).data := by
    unfold buildIndexName
    rw [strData_append, strData_append]
  have hhead : (buildIndexName q).data.head? = some 'i' := by
    rw [hdata, show ("index" : String).data = 'i' :: "ndex".data from rfl]
    simp
  refine ⟨⟨?_, ?_, ?_⟩, hhead⟩
  · intro hnil
    rw [hnil] at hhead
    exact absurd hhead (by simp)
  · intro c hc
    rw [hhead] at hc
    obtain rfl : 'i' = c := Option.some.inj hc
    decide
  · rw [hdata]
    intro hmem
    rcases List.mem_append.mp hmem with h1 | h1
    · rcases List.mem_append.mp h1 with h2 | h2
      · exact absurd h2 (by decide)
      · exact pathNameChar_ne_slash (mem_urlQuerySuffix h2) rfl
    · exact absurd h1 (by decide)

theorem goodComp_buildFileName {lastSeg : String} {b e' : List Char}
    (q : String) (hdata : lastSeg.data = b ++ '.' :: e') (hb : b ≠ [])
    (hbc : ∀ c ∈ b, isPathNameChar c = true)
    (hec : ∀ c ∈ e', isPathNameChar c = true) :
    GoodComp (buildFileName lastSeg (goPathExt lastSeg) q) := by
  have hext : goPathExt lastSeg = ⟨'.' :: e'⟩ := goPathExt_dot_suffix hdata hec
  have hdrop : dropRightStr lastSeg (goPathExt lastSeg).length = ⟨b⟩ := by
    rw [hext]
    exact dropRightStr_append hdata
  have hres : (buildFileName lastSeg (goPathExt lastSeg) q).data =
      b ++ (urlQuerySuffix q).data ++ '.' :: e' := by
    unfold buildFileName
    rw [hdrop, hext, strData_append, strData_append]
  refine ⟨?_, ?_, ?_⟩
  · rw [hres]
    cases b with
    | nil => exact absurd rfl hb
    | cons c0 b' => simp
  · intro c hc
    rw [hres] at hc
    cases b with
    | nil => exact absurd rfl hb
    | cons c0 b' =>
      rw [List.append_assoc, List.cons_append, List.head?_cons] at hc
      obtain rfl : c0 = c := Option.some.inj hc
      exact hbc _ (List.mem_cons_self _ _)
  · rw [hres]
    intro hmem
    rcases List.mem_append.mp hmem with h1 | h1
    · rcases List.mem_append.mp h1 with h2 | h2
      · exact pathNameChar_ne_slash (hbc '/' h2) rfl
      · exact pathNameChar_ne_slash (mem_urlQuerySuffix h2) rfl
    · rcases List.mem_cons.mp h1 with h2 | h2
      · exact absurd h2 (by decide)
      · exact pathNameChar_ne_slash (hec '/' h2) rfl

theorem getLastD_memX {α : Type} (l : List α) :
    ∀ d, l ≠ [] → l.getLastD d ∈ l := by
  induction l with
  | nil => intro d h; exact absurd rfl h
  | cons x xs ih =>
    intro d _
    cases xs with
    | nil => simp
    | cons y ys =>
      have := ih x (by simp)
      rw [show (x :: y :: ys).getLastD d = (y :: ys).getLastD x from rfl]
      exact List.mem_cons_of_mem x this

theorem mem_of_mem_dropLast {α : Type} {l : List α} {x : α}
    (h : x ∈ l.dropLast) : x ∈ l := by
  rw [List.dropLast_eq_take] at h
  exact List.take_subset _ _ h

theorem head?_append_left {α : Type} {l x : List α} {c : α}
    (h : l.head? = some c) : (l ++ x).head? = some c := by
  cases l with
  | nil => simp at h
  | cons a as => simpa using h

theorem assemble_nil (f : String) : assemble [] f = f := rfl

theorem assemble_eq_joinSlash (dirs : List String) (f : String) :
    assemble dirs f = joinSlash (dirs ++ [f]) := by
  unfold assemble
  by_cases h : dirs = []
  · rw [if_pos h, h]; rfl
  · rw [if_neg h, joinSlash_append_singleton f h]

/-- Branch-level equation for the pretty mode of the mapper. -/
theorem urlToLocalPathOf_true (u : GoURL) :
    urlToLocalPathOf u true =
      if isDirPath u.path || decide (prettySegments u.path = []) then
        assemble (prettySegments u.path) (buildIndexName u.rawQuery)
      else if goPathExt ((prettySegments u.path).getLastD "") = "" then
        assemble (prettySegments u.path) (buildIndexName u.rawQuery)
      else
        assemble (prettySegments u.path).dropLast
          (buildFileName ((prettySegments u.path).getLastD "")
            (goPathExt ((prettySegments u.path).getLastD "")) u.rawQuery) := rfl

/-- Branch-level equation for the preserve mode of the mapper. -/
theorem urlToLocalPathOf_false (u : GoURL) :
    urlToLocalPathOf u false =
      if isDirPath u.path || decide (preserveSegments u.escapedPath = []) then
        assemble (preserveSegments u.escapedPath)
          (if u.rawQuery = "" then "index.html"
           else "index.html%3F" ++ encodeForFS u.rawQuery)
      else
        assemble (preserveSegments u.escapedPath).dropLast
          (if u.rawQuery ≠ "" then
            (preserveSegments u.escapedPath).getLastD "" ++ "%3F" ++
              encodeForFS u.rawQuery
           else (preserveSegments u.escapedPath).getLastD "") := rfl

/-- In pretty mode the output is a slash-join of well-formed components. -/
theorem pretty_output_parts (u : GoURL) :
    ∃ parts, urlToLocalPathOf u true = joinSlash parts ∧ parts ≠ [] ∧
      ∀ s ∈ parts, GoodComp s := by
  rw [urlToLocalPathOf_true]
  by_cases hc : (isDirPath u.path || decide (prettySegments u.path = [])) = true
  · rw [if_pos hc, assemble_eq_joinSlash]
    refine ⟨_, rfl, by simp, ?_⟩
    intro s hs
    rcases List.mem_append.mp hs with h1 | h1
    · exact goodComp_mem_prettySegments h1
    · rcases List.mem_singleton.mp h1 with rfl
      exact (goodComp_buildIndexName u.rawQuery).1
  · rw [if_neg hc]
    have hsegne : prettySegments u.path ≠ [] := by
      intro h0
      exact hc (by simp [h0])
    by_cases hext : goPathExt ((prettySegments u.path).getLastD "") = ""
    · rw [if_pos hext, assemble_eq_joinSlash]
      refine ⟨_, rfl, by simp, ?_⟩
      intro s hs
      rcases List.mem_append.mp hs with h1 | h1
      · exact goodComp_mem_prettySegments h1
      · rcases List.mem_singleton.mp h1 with rfl
        exact (goodComp_buildIndexName u.rawQuery).1
    · rw [if_neg hext, assemble_eq_joinSlash]
      have hmem : (prettySegments u.path).getLastD "" ∈ prettySegments u.path :=
        getLastD_memX _ "" hsegne
      rcases mem_prettySegments hmem with ⟨hne, seg, hseg⟩
      rcases sanitizeSegment_shape seg with h0 | ⟨b, e, hdata, hb, hbc, he⟩
      · rw [hseg] at h0
        exact absurd h0 hne
      · rw [hseg] at hdata
        rcases he with rfl | ⟨e', rfl, hene, hec⟩
        · exfalso
          apply hext
          apply goPathExt_of_safe
          intro c hc'
          rw [hdata, List.append_nil] at hc'
          exact hbc c hc'
        · refine ⟨_, rfl, by simp, ?_⟩
          intro s hs
          rcases List.mem_append.mp hs with h1 | h1
          · exact goodComp_mem_prettySegments (mem_of_mem_dropLast h1)
          · rcases List.mem_singleton.mp h1 with rfl
            exact goodComp_buildFileName u.rawQuery hdata hb hbc hec

theorem mem_preserveSegments {p s : String} (h : s ∈ preserveSegments p) :
    s.data ≠ [] ∧ ∃ c, s.data.head? = some c ∧ c ≠ '/' := by
  rcases List.mem_filterMap.mp h with ⟨seg, hsegmem, hf⟩
  by_cases h1 : seg = ""
  · rw [if_pos h1] at hf; exact absurd hf (by simp)
  · rw [if_neg h1] at hf
    obtain rfl : encodeForFS seg = s := Option.some.inj hf
    have hslash : '/' ∉ seg.data := mem_splitOn_not_mem hsegmem
    rcases hd : seg.data with _ | ⟨c0, cs⟩
    · exact absurd (String.ext (by rw [hd])) h1
    · have hdata : (encodeForFS seg).data =
          encodeForFSChar c0 ++ cs.flatMap encodeForFSChar := by
        unfold encodeForFS
        rw [hd]
        simp
      have hc0 : c0 ≠ '/' := fun hcc => hslash (hcc ▸ hd ▸ List.mem_cons_self c0 cs)
      unfold encodeForFSChar at hdata
      by_cases hcond : (c0.toNat < 0x20 || c0 = '\\' || c0 = ':' || c0 = '*' ||
          c0 = '?' || c0 = '"' || c0 = '<' || c0 = '>' || c0 = '|') = true
      · rw [if_pos hcond] at hdata
        refine ⟨by rw [hdata]; simp, '%', by rw [hdata]; rfl, by decide⟩
      · rw [if_neg hcond] at hdata
        refine ⟨by rw [hdata]; simp, c0, by rw [hdata]; rfl, hc0⟩

/-- In preserve mode the output's first character exists and is not `/`. -/
theorem preserve_head_ex (u : GoURL) :
    ∃ c, (urlToLocalPathOf u false).data.head? = some c ∧ c ≠ '/' := by
  rw [urlToLocalPathOf_false]
  by_cases h1 : (isDirPath u.path || decide (preserveSegments u.escapedPath = [])) = true
  · rw [if_pos h1]
    cases hseg : preserveSegments u.escapedPath with
    | nil =>
      rw [assemble_nil]
      by_cases hq : u.rawQuery = ""
      · rw [if_pos hq]; exact ⟨'i', rfl, by decide⟩
      · rw [if_neg hq]
        refine ⟨'i', ?_, by decide⟩
        rw [strData_append]
        exact head?_append_left rfl
    | cons s0 ss =>
      rw [assemble_eq_joinSlash, List.cons_append]
      rcases mem_preserveSegments (hseg ▸ List.mem_cons_self s0 ss) with
        ⟨hne0, c0, hc0, hslash0⟩
      refine ⟨c0, ?_, hslash0⟩
      rw [head?_joinSlash _ hne0]
      exact hc0
  · rw [if_neg h1]
    have hsegne : preserveSegments u.escapedPath ≠ [] := by
      intro h0
      exact h1 (by simp [h0])
    rcases mem_preserveSegments (getLastD_memX _ "" hsegne) with
      ⟨hlne, cL, hcL, hLslash⟩
    have hfile : ∀ c,
        ((if u.rawQuery ≠ "" then
            (preserveSegments u.escapedPath).getLastD "" ++ "%3F" ++
              encodeForFS u.rawQuery
          else (preserveSegments u.escapedPath).getLastD "") : String).data.head? =
          some c → c = cL := by
      intro c hc
      by_cases hq : u.rawQuery ≠ ""
      · rw [if_pos hq, strData_append, strData_append,
          head?_append_left (head?_append_left hcL)] at hc
        exact (Option.some.inj hc).symm
      · rw [if_neg hq, hcL] at hc
        exact (Option.some.inj hc).symm
    have hfilene :
        ((if u.rawQuery ≠ "" then
            (preserveSegments u.escapedPath).getLastD "" ++ "%3F" ++
              encodeForFS u.rawQuery
          else (preserveSegments u.escapedPath).getLastD "") : String).data.head? =
          some cL := by
      by_cases hq : u.rawQuery ≠ ""
      · rw [if_pos hq, strData_append, strData_append]
        exact head?_append_left (head?_append_left hcL)
      · rw [if_neg hq]
        exact hcL
    cases hdp : (preserveSegments u.escapedPath).dropLast with
    | nil =>
      rw [assemble_nil]
      exact ⟨cL, hfilene, hLslash⟩
    | cons d0 ds =>
      rw [assemble_eq_joinSlash, List.cons_append]
      rcases mem_preserveSegments
          (mem_of_mem_dropLast (hdp ▸ List.mem_cons_self d0 ds)) with
        ⟨hned, cd, hcd, hslashd⟩
      refine ⟨cd, ?_, hslashd⟩
      rw [head?_joinSlash _ hned]
      exact hcd

/-- The mapper output always has a first character, and it is never `/`. -/
theorem output_head_ex (p : Option GoURL) (pretty : Bool) :
    ∃ c, (URLToLocalPath p pretty).data.head? = some c ∧ c ≠ '/' := by
  cases p with
  | none => exact ⟨'u', rfl, by decide⟩
  | some u =>
    cases pretty with
    | false => exact preserve_head_ex u
    | true =>
      rcases pretty_output_parts u with ⟨parts, hparts, hpne, hgood⟩
      cases parts with
      | nil => exact absurd rfl hpne
      | cons p0 ps =>
        have h0 := hgood p0 (List.mem_cons_self _ _)
        rcases hd : p0.data with _ | ⟨c0, cs⟩
        · exact absurd hd h0.1
        · refine ⟨c0, ?_, pathNameChar_ne_slash (h0.2.1 c0 (by rw [hd]; rfl))⟩
          show (URLToLocalPath (some u) true).data.head? = some c0
          rw [show URLToLocalPath (some u) true = urlToLocalPathOf u true from rfl,
            hparts, head?_joinSlash _ h0.1, hd]
          rfl

/-! ## Claim C10 -/

theorem cdxRowsAux_pos (rows : List (List String)) :
    ∀ i, i ≠ 0 →
      cdxRowsAux i rows =
        (rows.filter fun r => decide (2 ≤ r.length)).map
          (fun r => (⟨r.getD 0 "", r.getD 1 ""⟩ : CDXEntry)) := by
  induction rows with
  | nil => intro i _; rfl
  | cons row rest ih =>
    intro i hi
    match row with
    | [] => simp [cdxRowsAux, hi, ih (i + 1) (Nat.succ_ne_zero i), List.filter]
    | [t] => simp [cdxRowsAux, hi, ih (i + 1) (Nat.succ_ne_zero i), List.filter]
    | t :: o :: _ =>
      simp [cdxRowsAux, hi, ih (i + 1) (Nat.succ_ne_zero i), List.filter]

/-- Claim C10: on a decoded 200-status CDX body, `fetchCDXPage` drops the
first inner array (the header), silently skips every inner array with fewer
than two elements, and builds each entry from element 0 (timestamp) and
element 1 (original URL) of the remaining arrays. -/
theorem claim10_cdx_row_parsing (rows : List (List String)) :
    cdxEntriesOfRows rows =
      ((rows.drop 1).filter fun r => decide (2 ≤ r.length)).map
        (fun r => (⟨r.getD 0 "", r.getD 1 ""⟩ : CDXEntry)) := by
  cases rows with
  | nil => rfl
  | cons h rest =>
    show cdxRowsAux 0 (h :: rest) = _
    unfold cdxRowsAux
    simp only [if_pos rfl]
    exact cdxRowsAux_pos rest 1 Nat.one_ne_zero

/-! ## Claims C1, C9, C8 -/

/-- Claim C1 (amended): under either policy the mapper output never begins
with `/`; in pretty mode it also contains no `..` component.  In preserve
mode a literal `..` path segment of the URL is kept verbatim (the sanitizer
is not applied there), see the counterexample. -/
theorem claim1_no_leading_slash_and_pretty_no_dotdot :
    (∀ (p : Option GoURL) (pretty : Bool) (c : Char),
        (URLToLocalPath p pretty).data.head? = some c → c ≠ '/') ∧
    ∀ (p : Option GoURL), ".." ∉ splitOn '/' (URLToLocalPath p true) := by
  constructor
  · intro p pretty c hc
    rcases output_head_ex p pretty with ⟨c0, hc0, hne⟩
    rw [hc0] at hc
    exact (Option.some.inj hc) ▸ hne
  · intro p
    cases p with
    | none => decide
    | some u =>
      rcases pretty_output_parts u with ⟨parts, hparts, hpne, hgood⟩
      show ".." ∉ splitOn '/' (urlToLocalPathOf u true)
      rw [hparts]
      cases parts with
      | nil => exact absurd rfl hpne
      | cons p0 ps =>
        rw [splitOn_joinSlash fun q hq => (hgood q hq).2.2]
        intro hmem
        exact (hgood ".." hmem).ne_dotdot rfl

/-- Witness for the amended C1 theorem at a concrete URL. -/
theorem claim1_witness :
    (URLToLocalPath (some ⟨"/a/b.css", "/a/b.css", ""⟩) true).data.head? =
      some 'a' ∧
    'a' ≠ '/' ∧
    ".." ∉ splitOn '/' (URLToLocalPath (some ⟨"/a/b.css", "/a/b.css", ""⟩) true) :=
  ⟨by decide,
   claim1_no_leading_slash_and_pretty_no_dotdot.1
     (some ⟨"/a/b.css", "/a/b.css", ""⟩) true 'a' (by decide),
   claim1_no_leading_slash_and_pretty_no_dotdot.2
     (some ⟨"/a/b.css", "/a/b.css", ""⟩)⟩

/-- Counterexample to C1 as stated: Go's `url.Parse` does not remove dot
segments, so `https://example.com/../x` parses with `Path = "/../x"`, and in
preserve mode (`pretty=false`) the mapper keeps the `..` segment verbatim:
the output is `../x`, which has a `..` component. -/
theorem claim1_counterexample :
    URLToLocalPath (some ⟨"/../x", "/../x", ""⟩) false = "../x" ∧
    ".." ∈ splitOn '/' (URLToLocalPath (some ⟨"/../x", "/../x", ""⟩) false) := by
  decide

/-- Claim C9: the mapper is total and never returns the empty path, and a
parse failure yields the literal `"unknown"`. -/
theorem claim9_total_nonempty_unknown :
    (∀ (p : Option GoURL) (pretty : Bool), URLToLocalPath p pretty ≠ "") ∧
    ∀ (pretty : Bool), URLToLocalPath none pretty = "unknown" := by
  constructor
  · intro p pretty
    rcases output_head_ex p pretty with ⟨c0, hc0, _⟩
    intro h0
    rw [h0, show ("" : String).data = [] from rfl] at hc0
    exact absurd hc0 (by simp)
  · intro pretty; rfl

/-- Claim C8 (amended): in pretty mode, when the last sanitized segment has
an extension and the query is non-empty, the filename is the sanitized base,
then the query suffix, then the extension (so the extension stays final);
the suffix is `"_" + sanitize(decoded query)` whenever that sanitization is
non-empty (and empty otherwise, which is the amendment).  The two concrete
seed cases of the claim hold. -/
theorem claim8_query_before_extension :
    (∀ (u : GoURL),
      isDirPath u.path = false →
      prettySegments u.path ≠ [] →
      goPathExt ((prettySegments u.path).getLastD "") ≠ "" →
      u.rawQuery ≠ "" →
      urlToLocalPathOf u true =
        joinSlash ((prettySegments u.path).dropLast ++
          [dropRightStr ((prettySegments u.path).getLastD "")
              (goPathExt ((prettySegments u.path).getLastD "")).length ++
            urlQuerySuffix u.rawQuery ++
            goPathExt ((prettySegments u.path).getLastD "")]) ∧
      (pathName (queryReplaced u.rawQuery) ≠ "" →
        urlQuerySuffix u.rawQuery =
          "_" ++ pathName (queryReplaced u.rawQuery))) ∧
    URLToLocalPath (some ⟨"/img/photo.jpg", "/img/photo.jpg", "v=2"⟩) true =
      "img/photo_v_2.jpg" ∧
    URLToLocalPath (some ⟨"/search", "/search", "q=go"⟩) true =
      "search/index_q_go.html" := by
  refine ⟨?_, by decide, by decide⟩
  intro u hdir hseg hext hq
  constructor
  · rw [urlToLocalPathOf_true, hdir]
    rw [if_neg (by simp [hseg]), if_neg hext, assemble_eq_joinSlash]
    rfl
  · intro hs
    unfold urlQuerySuffix
    rw [if_neg hq, if_neg hs]

/-- Witness for the amended C8 theorem at `photo.jpg?v=2`. -/
theorem claim8_witness :
    urlToLocalPathOf ⟨"/img/photo.jpg", "/img/photo.jpg", "v=2"⟩ true =
      joinSlash ((prettySegments "/img/photo.jpg").dropLast ++
        [dropRightStr ((prettySegments "/img/photo.jpg").getLastD "")
            (goPathExt ((prettySegments "/img/photo.jpg").getLastD "")).length ++
          urlQuerySuffix "v=2" ++
          goPathExt ((prettySegments "/img/photo.jpg").getLastD "")]) ∧
    urlQuerySuffix "v=2" = "_" ++ pathName (queryReplaced "v=2") :=
  ⟨(claim8_query_before_extension.1 ⟨"/img/photo.jpg", "/img/photo.jpg", "v=2"⟩
      (by decide) (by decide) (by decide) (by decide)).1,
   (claim8_query_before_extension.1 ⟨"/img/photo.jpg", "/img/photo.jpg", "v=2"⟩
      (by decide) (by decide) (by decide) (by decide)).2 (by decide)⟩

/-- Counterexample to C8 as stated: with the non-empty query `"?"`, whose
sanitization is empty, no `_` is inserted: the mapped filename is `a.css`,
not the `a_.css` the claim's formula demands. -/
theorem claim8_counterexample :
    URLToLocalPath (some ⟨"/a.css", "/a.css", "?"⟩) true = "a.css" ∧
    URLToLocalPath (some ⟨"/a.css", "/a.css", "?"⟩) true ≠
      "a" ++ "_" ++ pathName (queryReplaced "?") ++ ".css" := by
  decide

/-! ## Lexicographic-order lemmas for the timestamp comparison -/

theorem lexLt_irrefl : ∀ l : List Char, lexLt l l = false
  | [] => rfl
  | a :: as => by
    unfold lexLt
    rw [if_neg (lt_irrefl a), if_neg (lt_irrefl a)]
    exact lexLt_irrefl as

theorem lexLt_asymm : ∀ a b : List Char, lexLt a b = true → lexLt b a = false
  | [], [], h => by simp [lexLt] at h
  | [], _ :: _, _ => rfl
  | _ :: _, [], h => by simp [lexLt] at h
  | x :: xs, y :: ys, h => by
    unfold lexLt at h ⊢
    by_cases hxy : x < y
    · rw [if_neg (asymm hxy), if_pos hxy]
    · rw [if_neg hxy] at h
      by_cases hyx : y < x
      · rw [if_pos hyx] at h
        exact absurd h (by simp)
      · rw [if_neg hyx] at h
        rw [if_neg hyx, if_neg hxy]
        exact lexLt_asymm xs ys h

theorem lexLt_false_trans :
    ∀ a b c : List Char, lexLt a b = false → lexLt b c = false →
      lexLt a c = false
  | a, _, [], _, _ => by cases a <;> rfl
  | _, [], _ :: _, _, hbc => absurd hbc (by simp [lexLt])
  | [], _ :: _, _ :: _, hab, _ => absurd hab (by simp [lexLt])
  | x :: xs, y :: ys, z :: zs, hab, hbc => by
    unfold lexLt at hab hbc ⊢
    by_cases hxy : x < y
    · rw [if_pos hxy] at hab
      exact absurd hab (by simp)
    · rw [if_neg hxy] at hab
      by_cases hyz : y < z
      · rw [if_pos hyz] at hbc
        exact absurd hbc (by simp)
      · rw [if_neg hyz] at hbc
        have hzy : z ≤ y := not_lt.mp hyz
        have hyx : y ≤ x := not_lt.mp hxy
        by_cases hzx : z < x
        · rw [if_neg (fun h' => lt_irrefl x (lt_trans h' hzx)), if_pos hzx]
        · have hxz : x ≤ z := not_lt.mp hzx
          obtain rfl : x = y := le_antisymm (le_trans hxz hzy) hyx
          obtain rfl : x = z := le_antisymm hxz (le_trans hzy hyx)
          simp only [if_neg hxy] at hab hbc ⊢
          exact lexLt_false_trans xs ys zs hab hbc

/-! ## Sorting and manifest lemmas (claim C3) -/

/-- The newest-first comparison as a relation: `a` is at least as new as
`b`. -/
def TsGe (a b : Snapshot) : Prop :=
  strLtB a.timestamp b.timestamp = false

instance : ∀ a b, Decidable (TsGe a b) := fun a b => by
  unfold TsGe
  infer_instance

theorem tsGe_trans {a b c : Snapshot} (h1 : TsGe a b) (h2 : TsGe b c) :
    TsGe a c :=
  lexLt_false_trans _ _ _ h1 h2

theorem mem_insertDesc {s y : Snapshot} :
    ∀ {l : List Snapshot}, y ∈ insertDesc s l → y = s ∨ y ∈ l := by
  intro l
  induction l with
  | nil => intro h; simp [insertDesc] at h; exact Or.inl h
  | cons t rest ih =>
    intro h
    unfold insertDesc at h
    by_cases hc : strLtB t.timestamp s.timestamp = true
    · rw [if_pos hc] at h
      rcases List.mem_cons.mp h with h1 | h1
      · exact Or.inl h1
      · exact Or.inr h1
    · rw [if_neg hc] at h
      rcases List.mem_cons.mp h with h1 | h1
      · exact Or.inr (h1 ▸ List.mem_cons_self t rest)
      · rcases ih h1 with h2 | h2
        · exact Or.inl h2
        · exact Or.inr (List.mem_cons_of_mem t h2)

theorem pairwise_insertDesc (s : Snapshot) :
    ∀ {l : List Snapshot}, l.Pairwise TsGe → (insertDesc s l).Pairwise TsGe := by
  intro l
  induction l with
  | nil => intro _; simp [insertDesc, List.pairwise_cons]
  | cons t rest ih =>
    intro h
    rcases List.pairwise_cons.mp h with ⟨hhead, htail⟩
    unfold insertDesc
    by_cases hc : strLtB t.timestamp s.timestamp = true
    · rw [if_pos hc]
      refine List.pairwise_cons.mpr ⟨?_, h⟩
      intro y hy
      have hst : TsGe s t := lexLt_asymm _ _ hc
      rcases List.mem_cons.mp hy with h1 | h1
      · exact h1 ▸ hst
      · exact tsGe_trans hst (hhead y h1)
    · rw [if_neg hc]
      refine List.pairwise_cons.mpr ⟨?_, ih htail⟩
      intro y hy
      rcases mem_insertDesc hy with h1 | h1
      · have hts : TsGe t s := by
          unfold TsGe
          cases hb : strLtB t.timestamp s.timestamp
          · rfl
          · exact absurd hb hc
        exact h1 ▸ hts
      · exact hhead y h1

theorem pairwise_sortDesc (l : List Snapshot) : (sortDesc l).Pairwise TsGe := by
  unfold sortDesc
  induction l with
  | nil => simp
  | cons s rest ih => exact pairwise_insertDesc s ih

theorem GetManifest_built {idx : SnapshotIndex} (h : idx.built = true) :
    GetManifest idx = (idx.manifest, idx) := by
  unfold GetManifest
  rw [if_pos h]

theorem GetManifest_not_built {idx : SnapshotIndex} (h : idx.built = false) :
    GetManifest idx = ((buildManifest idx).manifest, buildManifest idx) := by
  unfold GetManifest
  rw [if_neg (by simp [h])]

theorem Register_built (idx : SnapshotIndex) (inp : RegInput) :
    (Register idx inp).built = idx.built := by
  unfold Register
  cases inp.parsed <;> rfl

theorem foldl_Register_built (inputs : List RegInput) :
    ∀ idx : SnapshotIndex, (inputs.foldl Register idx).built = idx.built := by
  induction inputs with
  | nil => intro idx; rfl
  | cons inp rest ih =>
    intro idx
    rw [List.foldl_cons, ih (Register idx inp), Register_built]

theorem buildIndex_built (inputs : List RegInput) :
    (buildIndex inputs).built = false :=
  foldl_Register_built inputs NewSnapshotIndex

/-- Claim C3 (amended): `GetManifest` is idempotent — the second call
returns the same materialized list, and the state is a fixpoint after the
first call, so every later call returns that list too — and the manifest of
an index built from any sequence of registrations is sorted newest-first
with non-strict comparison (adjacent entries may share a timestamp;
strictness fails, see the counterexample). -/
theorem claim3_manifest_idempotent_sorted :
    (∀ idx : SnapshotIndex,
        (GetManifest (GetManifest idx).2).1 = (GetManifest idx).1) ∧
    (∀ idx : SnapshotIndex,
        (GetManifest (GetManifest idx).2).2 = (GetManifest idx).2) ∧
    ∀ inputs : List RegInput,
      ((GetManifest (buildIndex inputs)).1).Pairwise TsGe := by
  refine ⟨?_, ?_, ?_⟩
  · intro idx
    by_cases hb : idx.built = true
    · rw [GetManifest_built hb]
      show (GetManifest idx).1 = idx.manifest
      rw [GetManifest_built hb]
    · have hb' : idx.built = false := Bool.eq_false_iff.mpr hb
      rw [GetManifest_not_built hb']
      show (GetManifest (buildManifest idx)).1 = (buildManifest idx).manifest
      rw [GetManifest_built rfl]
  · intro idx
    by_cases hb : idx.built = true
    · rw [GetManifest_built hb]
      show (GetManifest idx).2 = idx
      rw [GetManifest_built hb]
    · have hb' : idx.built = false := Bool.eq_false_iff.mpr hb
      rw [GetManifest_not_built hb']
      show (GetManifest (buildManifest idx)).2 = buildManifest idx
      rw [GetManifest_built rfl]
  · intro inputs
    rw [GetManifest_not_built (buildIndex_built inputs)]
    exact pairwise_sortDesc _

/-- Counterexample to C3 as stated: two resources registered with the same
timestamp make the manifest contain two adjacent entries with equal
timestamps, so the strict newest-first ordering claimed fails. -/
theorem claim3_counterexample :
    ¬ ((GetManifest (buildIndex
        [⟨"https://example.com/a.html", some ⟨"/a.html", ""⟩, "20230101000000"⟩,
         ⟨"https://example.com/b.html", some ⟨"/b.html", ""⟩,
           "20230101000000"⟩])).1.Pairwise
      fun a b => strLtB b.timestamp a.timestamp = true) := by
  decide

/-! ## Association-list and `Register` lemmas (claims C2 and C5) -/

theorem mapLookup_mapInsert_self {α : Type} (m : List (String × α)) (k : String)
    (v : α) : mapLookup (mapInsert m k v) k = some v := by
  induction m with
  | nil => simp [mapInsert, mapLookup]
  | cons kv rest ih =>
    unfold mapInsert
    by_cases hk : kv.1 = k
    · rw [if_pos hk]
      simp [mapLookup]
    · rw [if_neg hk]
      show mapLookup (kv :: mapInsert rest k v) k = some v
      unfold mapLookup
      rw [if_neg hk]
      exact ih

theorem mapLookup_mapInsert_ne {α : Type} (m : List (String × α)) (k k' : String)
    (v : α) (h : k ≠ k') : mapLookup (mapInsert m k v) k' = mapLookup m k' := by
  induction m with
  | nil => simp [mapInsert, mapLookup, h]
  | cons kv rest ih =>
    unfold mapInsert
    by_cases hk : kv.1 = k
    · rw [if_pos hk]
      show mapLookup ((k, v) :: rest) k' = mapLookup (kv :: rest) k'
      unfold mapLookup
      rw [if_neg h, if_neg (hk ▸ h)]
    · rw [if_neg hk]
      show mapLookup (kv :: mapInsert rest k v) k' = mapLookup (kv :: rest) k'
      unfold mapLookup
      by_cases hk' : kv.1 = k'
      · rw [if_pos hk', if_pos hk']
      · rw [if_neg hk', if_neg hk']
        exact ih

theorem condStore_lookup_self_none {m : List (String × Snapshot)} {k : String}
    (snap : Snapshot) (hm : mapLookup m k = none) :
    mapLookup (condStore m k snap) k = some snap := by
  unfold condStore
  rw [hm]
  exact mapLookup_mapInsert_self m k snap

theorem condStore_lookup_self_lt {m : List (String × Snapshot)} {k : String}
    {ex : Snapshot} (snap : Snapshot) (hm : mapLookup m k = some ex)
    (hlt : strLtB ex.timestamp snap.timestamp = true) :
    mapLookup (condStore m k snap) k = some snap := by
  unfold condStore
  rw [hm]
  show mapLookup
    (if strLtB ex.timestamp snap.timestamp = true then mapInsert m k snap
     else m) k = some snap
  rw [if_pos hlt]
  exact mapLookup_mapInsert_self m k snap

theorem condStore_lookup_self_ge {m : List (String × Snapshot)} {k : String}
    {ex : Snapshot} (snap : Snapshot) (hm : mapLookup m k = some ex)
    (hlt : strLtB ex.timestamp snap.timestamp = false) :
    mapLookup (condStore m k snap) k = some ex := by
  unfold condStore
  rw [hm]
  show mapLookup
    (if strLtB ex.timestamp snap.timestamp = true then mapInsert m k snap
     else m) k = some ex
  rw [if_neg (by rw [hlt]; exact Bool.false_ne_true)]
  exact hm

theorem condStore_lookup_ne (m : List (String × Snapshot)) (k k' : String)
    (snap : Snapshot) (h : k ≠ k') :
    mapLookup (condStore m k snap) k' = mapLookup m k' := by
  unfold condStore
  cases hm : mapLookup m k with
  | none => exact mapLookup_mapInsert_ne m k k' snap h
  | some ex =>
    show mapLookup
      (if strLtB ex.timestamp snap.timestamp = true then mapInsert m k snap
       else m) k' = mapLookup m k'
    by_cases hlt : strLtB ex.timestamp snap.timestamp = true
    · rw [if_pos hlt]
      exact mapLookup_mapInsert_ne m k k' snap h
    · rw [if_neg hlt]

theorem Register_parsed_none {idx : SnapshotIndex} {inp : RegInput}
    (h : inp.parsed = none) : Register idx inp = idx := by
  unfold Register
  rw [h]

theorem Register_parsed_some {idx : SnapshotIndex} {inp : RegInput}
    {u : ParsedAsset} (h : inp.parsed = some u) :
    Register idx inp =
      { idx with
        byPathAndQuery := condStore idx.byPathAndQuery (queryKeyOf u)
          ⟨inp.rawURL, inp.timestamp, queryKeyOf u⟩
        byPath := condStore idx.byPath u.path
          ⟨inp.rawURL, inp.timestamp, queryKeyOf u⟩ } := by
  unfold Register
  rw [h]

/-- The key a registration contributes to `byPathAndQuery` (`none` when the
URL failed to parse). -/
def regKeyQuery (inp : RegInput) : Option String :=
  inp.parsed.map queryKeyOf

/-- The key a registration contributes to `byPath`. -/
def regKeyPath (inp : RegInput) : Option String :=
  inp.parsed.map (·.path)

/-- "`snap` carries the lexicographically greatest timestamp among the rows
of `inputs` whose key (under `keyf`) is `k`": some matching row has exactly
this timestamp, and no matching row has a greater one. -/
def IsMaxTsFor (inputs : List RegInput) (keyf : RegInput → Option String)
    (k : String) (snap : Snapshot) : Prop :=
  (∃ inp ∈ inputs, keyf inp = some k ∧ inp.timestamp = snap.timestamp) ∧
  ∀ inp ∈ inputs, keyf inp = some k →
    strLtB snap.timestamp inp.timestamp = false

/-- Induction invariant for one of the two maps. -/
def MapInv (inputs : List RegInput) (m : List (String × Snapshot))
    (keyf : RegInput → Option String) (k : String) : Prop :=
  (∀ snap, mapLookup m k = some snap → IsMaxTsFor inputs keyf k snap) ∧
  (mapLookup m k = none → ∀ inp ∈ inputs, keyf inp ≠ some k)

theorem IsMaxTsFor_extend_ne {inputs : List RegInput} {inp : RegInput}
    {keyf : RegInput → Option String} {k : String} {snap : Snapshot}
    (h : IsMaxTsFor inputs keyf k snap) (hne : keyf inp ≠ some k) :
    IsMaxTsFor (inputs ++ [inp]) keyf k snap := by
  rcases h with ⟨⟨w, hw, hwk, hwts⟩, hall⟩
  refine ⟨⟨w, List.mem_append_left _ hw, hwk, hwts⟩, ?_⟩
  intro p hp hpk
  rcases List.mem_append.mp hp with h1 | h1
  · exact hall p h1 hpk
  · rcases List.mem_singleton.mp h1 with rfl
    exact absurd hpk hne

theorem MapInv_step_ne {inputs : List RegInput} {m : List (String × Snapshot)}
    {keyf : RegInput → Option String} {k : String} {inp : RegInput}
    (h : MapInv inputs m keyf k) (hne : keyf inp ≠ some k) :
    MapInv (inputs ++ [inp]) m keyf k := by
  refine ⟨fun snap hs => IsMaxTsFor_extend_ne (h.1 snap hs) hne, ?_⟩
  intro hnone p hp
  rcases List.mem_append.mp hp with h1 | h1
  · exact h.2 hnone p h1
  · rcases List.mem_singleton.mp h1 with rfl
    exact hne

theorem MapInv_step_store {inputs : List RegInput}
    {m : List (String × Snapshot)} {keyf : RegInput → Option String}
    {k : String} {inp : RegInput}
    (h : MapInv inputs m keyf k) (hkey : keyf inp = some k)
    (snap' : Snapshot) (hts : snap'.timestamp = inp.timestamp) :
    MapInv (inputs ++ [inp]) (condStore m k snap') keyf k := by
  constructor
  · intro snap hs
    cases hm : mapLookup m k with
    | none =>
      rw [condStore_lookup_self_none snap' hm] at hs
      obtain rfl : snap' = snap := Option.some.inj hs
      refine ⟨⟨inp, List.mem_append_right _ (List.mem_singleton.mpr rfl),
        hkey, hts.symm⟩, ?_⟩
      intro p hp hpk
      rcases List.mem_append.mp hp with h1 | h1
      · exact absurd hpk (h.2 hm p h1)
      · rcases List.mem_singleton.mp h1 with rfl
        rw [hts]
        exact lexLt_irrefl _
    | some ex =>
      rcases h.1 ex hm with ⟨⟨w, hw, hwk, hwts⟩, hall⟩
      by_cases hlt : strLtB ex.timestamp snap'.timestamp = true
      · rw [condStore_lookup_self_lt snap' hm hlt] at hs
        obtain rfl : snap' = snap := Option.some.inj hs
        refine ⟨⟨inp, List.mem_append_right _ (List.mem_singleton.mpr rfl),
          hkey, hts.symm⟩, ?_⟩
        intro p hp hpk
        rcases List.mem_append.mp hp with h1 | h1
        · exact lexLt_false_trans _ _ _ (lexLt_asymm _ _ hlt) (hall p h1 hpk)
        · rcases List.mem_singleton.mp h1 with rfl
          rw [hts]
          exact lexLt_irrefl _
      · have hlt' : strLtB ex.timestamp snap'.timestamp = false := by
          cases hb : strLtB ex.timestamp snap'.timestamp
          · rfl
          · exact absurd hb hlt
        rw [condStore_lookup_self_ge snap' hm hlt'] at hs
        obtain rfl : ex = snap := Option.some.inj hs
        refine ⟨⟨w, List.mem_append_left _ hw, hwk, hwts⟩, ?_⟩
        intro p hp hpk
        rcases List.mem_append.mp hp with h1 | h1
        · exact hall p h1 hpk
        · rcases List.mem_singleton.mp h1 with rfl
          rw [← hts]
          exact hlt'
  · intro hnone
    cases hm : mapLookup m k with
    | none =>
      rw [condStore_lookup_self_none snap' hm] at hnone
      exact absurd hnone (by simp)
    | some ex =>
      by_cases hlt : strLtB ex.timestamp snap'.timestamp = true
      · rw [condStore_lookup_self_lt snap' hm hlt] at hnone
        exact absurd hnone (by simp)
      · have hlt' : strLtB ex.timestamp snap'.timestamp = false := by
          cases hb : strLtB ex.timestamp snap'.timestamp
          · rfl
          · exact absurd hb hlt
        rw [condStore_lookup_self_ge snap' hm hlt'] at hnone
        exact absurd hnone (by simp)

theorem buildIndex_invariant (inputs : List RegInput) (k : String) :
    MapInv inputs (buildIndex inputs).byPathAndQuery regKeyQuery k ∧
    MapInv inputs (buildIndex inputs).byPath regKeyPath k := by
  induction inputs using List.reverseRecOn with
  | nil =>
    constructor <;>
      exact ⟨fun snap hs =>
          absurd hs (by simp [buildIndex, NewSnapshotIndex, mapLookup]),
        fun _ p hp => absurd hp (by simp)⟩
  | append_singleton l inp ih =>
    have hfold : buildIndex (l ++ [inp]) = Register (buildIndex l) inp := by
      unfold buildIndex
      rw [List.foldl_append]
      rfl
    rw [hfold]
    cases hp : inp.parsed with
    | none =>
      rw [Register_parsed_none hp]
      have hq : regKeyQuery inp ≠ some k := by simp [regKeyQuery, hp]
      have hpth : regKeyPath inp ≠ some k := by simp [regKeyPath, hp]
      exact ⟨MapInv_step_ne ih.1 hq, MapInv_step_ne ih.2 hpth⟩
    | some u =>
      rw [Register_parsed_some hp]
      constructor
      · show MapInv (l ++ [inp])
          (condStore (buildIndex l).byPathAndQuery (queryKeyOf u)
            ⟨inp.rawURL, inp.timestamp, queryKeyOf u⟩) regKeyQuery k
        by_cases hk : queryKeyOf u = k
        · subst hk
          exact MapInv_step_store ih.1 (by simp [regKeyQuery, hp]) _ rfl
        · have : ∀ snap : Snapshot, mapLookup (condStore
              (buildIndex l).byPathAndQuery (queryKeyOf u)
              (⟨inp.rawURL, inp.timestamp, queryKeyOf u⟩ : Snapshot)) k =
              mapLookup (buildIndex l).byPathAndQuery k :=
            fun _ => condStore_lookup_ne _ _ _ _ hk
          have hstep := MapInv_step_ne ih.1
            (show regKeyQuery inp ≠ some k by
              simp [regKeyQuery, hp]
              exact hk)
          exact ⟨fun snap hs => hstep.1 snap (by rwa [this snap] at hs),
            fun hnone => hstep.2 (by rwa [this ⟨"", "", ""⟩] at hnone)⟩
      · show MapInv (l ++ [inp])
          (condStore (buildIndex l).byPath u.path
            ⟨inp.rawURL, inp.timestamp, queryKeyOf u⟩) regKeyPath k
        by_cases hk : u.path = k
        · subst hk
          exact MapInv_step_store ih.2 (by simp [regKeyPath, hp]) _ rfl
        · have : ∀ snap : Snapshot, mapLookup (condStore
              (buildIndex l).byPath u.path
              (⟨inp.rawURL, inp.timestamp, queryKeyOf u⟩ : Snapshot)) k =
              mapLookup (buildIndex l).byPath k :=
            fun _ => condStore_lookup_ne _ _ _ _ hk
          have hstep := MapInv_step_ne ih.2
            (show regKeyPath inp ≠ some k by
              simp [regKeyPath, hp]
              exact hk)
          exact ⟨fun snap hs => hstep.1 snap (by rwa [this snap] at hs),
            fun hnone => hstep.2 (by rwa [this ⟨"", "", ""⟩] at hnone)⟩

/-- Claim C2: after any sequence of `Register` calls, every key present in
either map stores a snapshot whose timestamp is the lexicographic maximum of
the timestamps of all successfully parsed registered rows producing that
key. -/
theorem claim2_register_keeps_max (inputs : List RegInput) (k : String) :
    (∀ snap, mapLookup (buildIndex inputs).byPathAndQuery k = some snap →
        IsMaxTsFor inputs regKeyQuery k snap) ∧
    (∀ snap, mapLookup (buildIndex inputs).byPath k = some snap →
        IsMaxTsFor inputs regKeyPath k snap) :=
  ⟨(buildIndex_invariant inputs k).1.1, (buildIndex_invariant inputs k).2.1⟩

/-- Witness for C2: the seed scenario of the spec — registering
`page.html` at two timestamps stores the newer one, which is maximal. -/
theorem claim2_witness :
    mapLookup (buildIndex
      [⟨"https://example.com/page.html", some ⟨"/page.html", ""⟩,
        "20220101000000"⟩,
       ⟨"https://example.com/page.html", some ⟨"/page.html", ""⟩,
        "20230601000000"⟩]).byPathAndQuery "/page.html" =
      some ⟨"https://example.com/page.html", "20230601000000", "/page.html"⟩ ∧
    IsMaxTsFor
      [⟨"https://example.com/page.html", some ⟨"/page.html", ""⟩,
        "20220101000000"⟩,
       ⟨"https://example.com/page.html", some ⟨"/page.html", ""⟩,
        "20230601000000"⟩] regKeyQuery "/page.html"
      ⟨"https://example.com/page.html", "20230601000000", "/page.html"⟩ :=
  ⟨by decide,
   (claim2_register_keeps_max
      [⟨"https://example.com/page.html", some ⟨"/page.html", ""⟩,
        "20220101000000"⟩,
       ⟨"https://example.com/page.html", some ⟨"/page.html", ""⟩,
        "20230601000000"⟩] "/page.html").1 _ (by decide)⟩

/-! ## Claim C5 -/

theorem mapLookup_map_timestamp (m : List (String × Snapshot)) (k : String) :
    mapLookup (m.map fun kv => (kv.1, kv.2.timestamp)) k =
      (mapLookup m k).map (·.timestamp) := by
  induction m with
  | nil => rfl
  | cons kv rest ih =>
    obtain ⟨k', v⟩ := kv
    simp only [List.map_cons]
    unfold mapLookup
    by_cases hk : k' = k
    · rw [if_pos hk, if_pos hk]
      rfl
    · rw [if_neg hk, if_neg hk]
      exact ih

/-- Claim C5: on an index built from any sequence of registrations,
`Resolve` returns the timestamp stored in `byPathAndQuery` under the
path+query key when present, else the timestamp stored in `byPath` under the
path key when present, else the fallback; a parse failure returns the
fallback. -/
theorem claim5_resolve_query_path_fallback (inputs : List RegInput)
    (parsed : Option ParsedAsset) (fallback : String) :
    (Resolve (buildIndex inputs) parsed fallback).1 =
      match parsed with
      | none => fallback
      | some u =>
        match mapLookup (buildIndex inputs).byPathAndQuery (queryKeyOf u) with
        | some snap => snap.timestamp
        | none =>
          match mapLookup (buildIndex inputs).byPath u.path with
          | some snap => snap.timestamp
          | none => fallback := by
  have hb : (buildIndex inputs).built = false := buildIndex_built inputs
  unfold Resolve
  rw [if_neg (by simp [hb])]
  cases parsed with
  | none => rfl
  | some u =>
    show (match mapLookup (buildManifest (buildIndex inputs)).lookupQuery
            (queryKeyOf u) with
          | some ts => (ts, buildManifest (buildIndex inputs))
          | none =>
            match mapLookup (buildManifest (buildIndex inputs)).lookupPath
                u.path with
            | some ts => (ts, buildManifest (buildIndex inputs))
            | none => (fallback, buildManifest (buildIndex inputs))).1 =
      match mapLookup (buildIndex inputs).byPathAndQuery (queryKeyOf u) with
      | some snap => snap.timestamp
      | none =>
        match mapLookup (buildIndex inputs).byPath u.path with
        | some snap => snap.timestamp
        | none => fallback
    rw [show (buildManifest (buildIndex inputs)).lookupQuery =
        (buildIndex inputs).byPathAndQuery.map
          (fun kv => (kv.1, kv.2.timestamp)) from rfl,
      show (buildManifest (buildIndex inputs)).lookupPath =
        (buildIndex inputs).byPath.map
          (fun kv => (kv.1, kv.2.timestamp)) from rfl,
      mapLookup_map_timestamp, mapLookup_map_timestamp]
    cases mapLookup (buildIndex inputs).byPathAndQuery (queryKeyOf u) with
    | some snap => rfl
    | none =>
      cases mapLookup (buildIndex inputs).byPath u.path with
      | some snap => rfl
      | none => rfl

/-! ## Claim C6 -/

theorem int64Wrap_eq_self {n : Int} (h1 : 0 ≤ n) (h2 : n < 2 ^ 63) :
    int64Wrap n = n := by
  unfold int64Wrap
  rw [Int.emod_eq_of_lt (by omega) (by norm_num; omega)]
  omega

theorem retryBackoff_small {attempt : Nat} (h : attempt ≤ 30) :
    retryBackoff attempt =
      min (5 * oneSecond * 2 ^ attempt) (60 * oneSecond) := by
  have hpow : (2 : Int) ^ attempt ≤ 2 ^ 30 :=
    pow_le_pow_right₀ (by norm_num) h
  have hpos : (0 : Int) ≤ 5 * oneSecond * 2 ^ attempt :=
    mul_nonneg (by norm_num [oneSecond]) (pow_nonneg (by norm_num) _)
  have hbound : 5 * oneSecond * 2 ^ attempt < 2 ^ 63 := by
    calc 5 * oneSecond * 2 ^ attempt ≤ 5 * oneSecond * 2 ^ 30 := by
          have : (0 : Int) ≤ 5 * oneSecond := by norm_num [oneSecond]
          exact mul_le_mul_of_nonneg_left hpow this
      _ < 2 ^ 63 := by norm_num [oneSecond]
  unfold retryBackoff
  rw [int64Wrap_eq_self hpos hbound]
  by_cases hgt : 5 * oneSecond * 2 ^ attempt > 60 * oneSecond
  · rw [if_pos hgt, min_eq_right (le_of_lt hgt)]
  · rw [if_neg hgt, min_eq_left (not_lt.mp hgt)]

/-- Claim C6 (amended): when `Retry-After` parses as a positive integer not
exceeding 9 223 372 036 (beyond which `secs * time.Second` overflows int64),
the delay is that many seconds capped at 120 s; otherwise, for attempts up
to 30 (beyond which `5s << attempt` overflows int64), the delay is
`min(5 s · 2^attempt, 60 s)`. -/
theorem claim6_retry_delay :
    (∀ (attempt : Nat) (ra : String) (secs : Int),
        goAtoi ra = some secs → 0 < secs → secs ≤ 9223372036 →
        retryDelay attempt ra =
          min (secs * oneSecond) (120 * oneSecond)) ∧
    ∀ (attempt : Nat) (ra : String),
      attempt ≤ 30 →
      (ra = "" ∨ goAtoi ra = none ∨ ∃ secs ≤ 0, goAtoi ra = some secs) →
      retryDelay attempt ra =
        min (5 * oneSecond * 2 ^ attempt) (60 * oneSecond) := by
  constructor
  · intro attempt ra secs hA hpos hle
    have hra : ra ≠ "" := by
      intro h0
      rw [h0] at hA
      exact absurd hA (by simp [goAtoi])
    have hwrap : int64Wrap (secs * oneSecond) = secs * oneSecond := by
      apply int64Wrap_eq_self
      · exact mul_nonneg (le_of_lt hpos) (by norm_num [oneSecond])
      · calc secs * oneSecond ≤ 9223372036 * oneSecond := by
              exact mul_le_mul_of_nonneg_right hle (by norm_num [oneSecond])
          _ < 2 ^ 63 := by norm_num [oneSecond]
    unfold retryDelay
    rw [if_pos hra, hA]
    show (if 0 < secs then _ else _) = _
    rw [if_pos hpos, hwrap]
    by_cases hgt : secs * oneSecond > 120 * oneSecond
    · rw [if_pos hgt, min_eq_right (le_of_lt hgt)]
    · rw [if_neg hgt, min_eq_left (not_lt.mp hgt)]
  · intro attempt ra hatt hcases
    rw [← retryBackoff_small hatt]
    rcases hcases with h0 | hnone | ⟨secs, hle, hsome⟩
    · unfold retryDelay
      rw [if_neg (by simp [h0])]
    · unfold retryDelay
      by_cases hra : ra ≠ ""
      · rw [if_pos hra, hnone]
      · rw [if_neg hra]
    · unfold retryDelay
      have hra : ra ≠ "" := by
        intro h0
        rw [h0] at hsome
        exact absurd hsome (by simp [goAtoi])
      rw [if_pos hra, hsome]
      show (if 0 < secs then _ else _) = _
      rw [if_neg (not_lt.mpr hle)]

/-- Witness for the amended C6 theorem: a parsed `Retry-After` of 7 s and a
plain third attempt. -/
theorem claim6_witness :
    retryDelay 2 "7" = min (7 * oneSecond) (120 * oneSecond) ∧
    retryDelay 3 "" = min (5 * oneSecond * 2 ^ 3) (60 * oneSecond) :=
  ⟨claim6_retry_delay.1 2 "7" 7 (by decide) (by decide) (by decide),
   claim6_retry_delay.2 3 "" (by decide) (Or.inl rfl)⟩

/-- Counterexample to C6 as stated: at attempt 31 the Go expression
`5 * time.Second << 31` overflows int64 and the returned delay is a large
negative duration, not the claimed `min(5s · 2^31, 60s) = 60s`. -/
theorem claim6_counterexample :
    min (5 * oneSecond * 2 ^ 31) (60 * oneSecond) = 60 * oneSecond ∧
    retryDelay 31 "" = -7709325833709551616 ∧
    retryDelay 31 "" ≠ 60 * oneSecond := by
  refine ⟨min_eq_right (by norm_num [oneSecond]), by decide, by decide⟩

/-! ## Claim C7 -/

/-- Pages requested by the wildcard pagination loop: page `p` is fetched
exactly when it is within the window `[page, page+fuel)` and every earlier
page in the window returned a non-empty successful result. -/
theorem mem_pageLoop_trace (fetch : CDXFetch) (w : String) :
    ∀ (fuel page : Nat) (seen : List String) (acc : List CDXEntry) (p : Nat),
      (w, (p : Int)) ∈ (pageLoop fetch w page fuel seen acc).2 ↔
        (page ≤ p ∧ p < page + fuel ∧
          ∀ q : Nat, page ≤ q → q < p →
            ∃ es, fetch w (q : Int) = .ok es ∧ es ≠ []) := by
  intro fuel
  induction fuel with
  | zero =>
    intro page seen acc p
    show (w, (p : Int)) ∈ ([] : List (String × Int)) ↔ _
    constructor
    · intro h
      exact absurd h (List.not_mem_nil _)
    · rintro ⟨h1, h2, _⟩
      omega
  | succ fuel ih =>
    intro page seen acc p
    cases hf : fetch w (page : Int) with
    | error e =>
      have htr : (pageLoop fetch w page (fuel + 1) seen acc).2 =
          [(w, (page : Int))] := by
        unfold pageLoop
        rw [hf]
      rw [htr]
      constructor
      · intro hmem
        have heq := List.mem_singleton.mp hmem
        have hp : p = page := by
          have h2 : ((p : Int)) = ((page : Int)) := congrArg Prod.snd heq
          exact_mod_cast h2
        subst hp
        exact ⟨le_refl _, by omega,
          fun q hq1 hq2 => absurd (lt_of_le_of_lt hq1 hq2) (lt_irrefl _)⟩
      · rintro ⟨h1, h2, h3⟩
        by_cases hp : p = page
        · subst hp
          exact List.mem_singleton.mpr rfl
        · have hlt : page < p := lt_of_le_of_ne h1 (Ne.symm hp)
          rcases h3 page (le_refl _) hlt with ⟨es, hes, _⟩
          rw [hf] at hes
          cases hes
    | ok es =>
      by_cases hes : es = []
      · subst hes
        have htr : (pageLoop fetch w page (fuel + 1) seen acc).2 =
            [(w, (page : Int))] := by
          unfold pageLoop
          rw [hf]
          rfl
        rw [htr]
        constructor
        · intro hmem
          have heq := List.mem_singleton.mp hmem
          have hp : p = page := by
            have h2 : ((p : Int)) = ((page : Int)) := congrArg Prod.snd heq
            exact_mod_cast h2
          subst hp
          exact ⟨le_refl _, by omega,
            fun q hq1 hq2 => absurd (lt_of_le_of_lt hq1 hq2) (lt_irrefl _)⟩
        · rintro ⟨h1, h2, h3⟩
          by_cases hp : p = page
          · subst hp
            exact List.mem_singleton.mpr rfl
          · have hlt : page < p := lt_of_le_of_ne h1 (Ne.symm hp)
            rcases h3 page (le_refl _) hlt with ⟨es', hes', hne'⟩
            rw [hf] at hes'
            obtain rfl : ([] : List CDXEntry) = es' := Except.ok.inj hes'
            exact absurd rfl hne'
      · have htr : (pageLoop fetch w page (fuel + 1) seen acc).2 =
            (w, (page : Int)) ::
              (pageLoop fetch w (page + 1) fuel (dedupAdd seen acc es).1
                (dedupAdd seen acc es).2).2 := by
          conv_lhs => unfold pageLoop
          rw [hf]
          show (if es = [] then ((seen, acc), [(w, (page : Int))])
                else ((pageLoop fetch w (page + 1) fuel (dedupAdd seen acc es).1
                        (dedupAdd seen acc es).2).1,
                      (w, (page : Int)) ::
                        (pageLoop fetch w (page + 1) fuel
                          (dedupAdd seen acc es).1
                          (dedupAdd seen acc es).2).2)).2 = _
          rw [if_neg hes]
        rw [htr, List.mem_cons, ih (page + 1) _ _ p]
        constructor
        · rintro (heq | ⟨h1, h2, h3⟩)
          · have hp : p = page := by
              have h2 : ((p : Int)) = ((page : Int)) := congrArg Prod.snd heq
              exact_mod_cast h2
            subst hp
            exact ⟨le_refl _, by omega,
              fun q hq1 hq2 => absurd (lt_of_le_of_lt hq1 hq2) (lt_irrefl _)⟩
          · refine ⟨by omega, by omega, ?_⟩
            intro q hq1 hq2
            by_cases hq : q = page
            · subst hq
              exact ⟨es, hf, hes⟩
            · exact h3 q (by omega) hq2
        · rintro ⟨h1, h2, h3⟩
          by_cases hp : p = page
          · subst hp
            exact Or.inl rfl
          · exact Or.inr ⟨by omega, by omega, fun q hq1 hq2 => h3 q (by omega) hq2⟩

theorem fetchAllAux_cons_false (fetch : CDXFetch) (v : String)
    (vs : List String) (seen : List String) (acc : List CDXEntry) :
    fetchAllAux fetch false (v :: vs) seen acc =
      ((fetchAllAux fetch false vs
          (pageLoop fetch (wildcardOf v) 0 100 seen acc).1.1
          (pageLoop fetch (wildcardOf v) 0 100 seen acc).1.2).1,
        (pageLoop fetch (wildcardOf v) 0 100 seen acc).2 ++
          (fetchAllAux fetch false vs
            (pageLoop fetch (wildcardOf v) 0 100 seen acc).1.1
            (pageLoop fetch (wildcardOf v) 0 100 seen acc).1.2).2) := by
  conv_lhs => unfold fetchAllAux
  rw [if_neg Bool.false_ne_true]

theorem fetchAllAux_cons_true (fetch : CDXFetch) (v : String)
    (vs : List String) (seen : List String) (acc : List CDXEntry) :
    fetchAllAux fetch true (v :: vs) seen acc =
      match fetch v (-1) with
      | .error e => (.error e, [(v, -1)])
      | .ok entries =>
        ((fetchAllAux fetch true vs (dedupAdd seen acc entries).1
            (dedupAdd seen acc entries).2).1,
          (v, -1) :: (fetchAllAux fetch true vs (dedupAdd seen acc entries).1
            (dedupAdd seen acc entries).2).2) := by
  conv_lhs => unfold fetchAllAux
  rw [if_pos rfl]

theorem fetchAll_wildcard_isOk (fetch : CDXFetch) :
    ∀ (vs : List String) (seen : List String) (acc : List CDXEntry),
      ∃ l, (fetchAllAux fetch false vs seen acc).1 = .ok l := by
  intro vs
  induction vs with
  | nil => intro seen acc; exact ⟨acc, rfl⟩
  | cons v vs ih =>
    intro seen acc
    rw [fetchAllAux_cons_false]
    exact ih _ _

theorem fetchAll_exact_ok_iff (fetch : CDXFetch) :
    ∀ (vs : List String) (seen : List String) (acc : List CDXEntry),
      (∃ l, (fetchAllAux fetch true vs seen acc).1 = .ok l) ↔
        ∀ v ∈ vs, ∃ es, fetch v (-1) = .ok es := by
  intro vs
  induction vs with
  | nil =>
    intro seen acc
    constructor
    · intro _ v hv
      exact absurd hv (List.not_mem_nil v)
    · intro _
      exact ⟨acc, rfl⟩
  | cons v vs ih =>
    intro seen acc
    rw [fetchAllAux_cons_true]
    cases hf : fetch v (-1) with
    | error e =>
      constructor
      · rintro ⟨l, hl⟩
        cases hl
      · intro hall
        rcases hall v (List.mem_cons_self _ _) with ⟨es, hes⟩
        rw [hf] at hes
        cases hes
    | ok es =>
      constructor
      · rintro ⟨l, hl⟩
        intro v' hv'
        rcases List.mem_cons.mp hv' with rfl | hv'
        · exact ⟨es, hf⟩
        · exact ((ih _ _).mp ⟨l, hl⟩) v' hv'
      · intro hall
        exact (ih _ _).mpr fun v' hv' => hall v' (List.mem_cons_of_mem _ hv')

theorem fetchAll_wildcard_page0 (fetch : CDXFetch) :
    ∀ (vs : List String) (seen : List String) (acc : List CDXEntry)
      (v : String), v ∈ vs →
      (wildcardOf v, (0 : Int)) ∈ (fetchAllAux fetch false vs seen acc).2 := by
  intro vs
  induction vs with
  | nil =>
    intro seen acc v hv
    exact absurd hv (List.not_mem_nil v)
  | cons v0 vs ih =>
    intro seen acc v hv
    rw [fetchAllAux_cons_false]
    rcases List.mem_cons.mp hv with rfl | hv'
    · apply List.mem_append_left
      exact (mem_pageLoop_trace fetch (wildcardOf v) 100 0 seen acc 0).mpr
        ⟨le_refl _, by omega,
          fun q hq1 hq2 => absurd (lt_of_le_of_lt hq1 hq2) (lt_irrefl _)⟩
    · exact List.mem_append_right _ (ih _ _ v hv')

/-- Claim C7: wildcard pagination requests pages 0,1,2,… per variant and
stops exactly at the first empty page or fetch error, or after 100 pages;
a wildcard fetch error never fails the overall fetch and later variants are
still requested (page 0 of every variant is always fetched); in exact-URL
mode the fetch succeeds iff every variant's single request succeeds. -/
theorem claim7_pagination :
    (∀ (fetch : CDXFetch) (variants : List String),
        ∃ l, (fetchAllSnapshots fetch variants false).1 = .ok l) ∧
    (∀ (fetch : CDXFetch) (w : String) (seen : List String)
        (acc : List CDXEntry) (p : Nat),
        (w, (p : Int)) ∈ (pageLoop fetch w 0 100 seen acc).2 ↔
          (p < 100 ∧ ∀ q : Nat, q < p →
            ∃ es, fetch w (q : Int) = .ok es ∧ es ≠ [])) ∧
    (∀ (fetch : CDXFetch) (variants : List String),
        (∃ l, (fetchAllSnapshots fetch variants true).1 = .ok l) ↔
          ∀ v ∈ variants, ∃ es, fetch v (-1) = .ok es) ∧
    (∀ (fetch : CDXFetch) (variants : List String) (v : String),
        v ∈ variants →
        (wildcardOf v, (0 : Int)) ∈ (fetchAllSnapshots fetch variants false).2) := by
  refine ⟨fun fetch variants => fetchAll_wildcard_isOk fetch variants [] [],
    fun fetch w seen acc p => ?_,
    fun fetch variants => fetchAll_exact_ok_iff fetch variants [] [],
    fun fetch variants v hv => fetchAll_wildcard_page0 fetch variants [] [] v hv⟩
  rw [mem_pageLoop_trace fetch w 100 0 seen acc p]
  constructor
  · rintro ⟨_, h2, h3⟩
    exact ⟨by omega, fun q hq => h3 q (Nat.zero_le q) hq⟩
  · rintro ⟨h2, h3⟩
    exact ⟨Nat.zero_le p, by omega, fun q _ hq => h3 q hq⟩

/-- Witness for C7 at concrete fetch functions and a singleton variant
list. -/
theorem claim7_witness :
    (∃ l, (fetchAllSnapshots (fun _ _ => .ok []) ["v"] false).1 = .ok l) ∧
    ((wildcardOf "v", (0 : Int)) ∈
      (fetchAllSnapshots (fun _ _ => .error "boom") ["v"] false).2) ∧
    (∃ l, (fetchAllSnapshots (fun _ _ => .ok [⟨"t", "u"⟩]) ["v"] true).1 =
      .ok l) :=
  ⟨claim7_pagination.1 (fun _ _ => .ok []) ["v"],
   claim7_pagination.2.2.2 (fun _ _ => .error "boom") ["v"] "v"
     (List.mem_singleton.mpr rfl),
   (claim7_pagination.2.2.1 (fun _ _ => .ok [⟨"t", "u"⟩]) ["v"]).mpr
     (fun _ _ => ⟨[⟨"t", "u"⟩], rfl⟩)⟩

/-! ## Claim C4 -/

/-- Claim C4: for a same-origin http/https attribute value (not skipped by
the `#`/`javascript:`/`data:`/`mailto:` guards), the rewriter replaces the
attribute with the path of the mapped local target relative to the page
file's directory, with every literal `%` doubled to `%25`. -/
theorem claim4_rewrite_internal (parseRef : String → Option ResolvedURL)
    (aval bareHost directory localDir : String) (pretty : Bool)
    (r : ResolvedURL)
    (hskip : skipAttrVal (trimSpace aval) = false)
    (hres : parseRef (trimSpace aval) = some r)
    (hscheme : (r.scheme ≠ "http" && r.scheme ≠ "https") = false)
    (hhost : isInternalHost r.host bareHost = true) :
    rewriteAttrVal parseRef aval bareHost directory localDir pretty =
      some (replaceAllPercent (RelativeLink localDir
        (ToPosix (goFilepathJoin directory
          (URLToLocalPath (some r.url) pretty))))) := by
  unfold rewriteAttrVal
  rw [if_neg (by rw [hskip]; exact Bool.false_ne_true), hres]
  show (if (r.scheme ≠ "http" && r.scheme ≠ "https") = true then none
        else if (!isInternalHost r.host bareHost) = true then none
        else some (replaceAllPercent (RelativeLink localDir
          (ToPosix (goFilepathJoin directory
            (URLToLocalPath (some r.url) pretty)))))) = _
  rw [if_neg (by rw [hscheme]; exact Bool.false_ne_true),
    if_neg (by rw [hhost]; exact Bool.false_ne_true)]

/-- Witness for C4: the spec's preserve-mode seed case — a same-page
`style.css?HASH` reference becomes `style.css%253FHASH` (the `%3F` in the
on-disk name re-encoded once for the browser). -/
theorem claim4_witness :
    rewriteAttrVal
      (fun v =>
        if v = "style.css?HASH" then
          some ⟨"http", "example.com", ⟨"/style.css", "/style.css", "HASH"⟩⟩
        else none)
      "style.css?HASH" "example.com" "websites/example.com"
      "websites/example.com" false = some "style.css%253FHASH" :=
  (claim4_rewrite_internal
    (fun v =>
      if v = "style.css?HASH" then
        some ⟨"http", "example.com", ⟨"/style.css", "/style.css", "HASH"⟩⟩
      else none)
    "style.css?HASH" "example.com" "websites/example.com"
    "websites/example.com" false
    ⟨"http", "example.com", ⟨"/style.css", "/style.css", "HASH"⟩⟩
    (by decide) (by decide) (by decide) (by decide)).trans (by decide)

end WaybackDL
